import Mathlib

/-!
# commandcast: the exec action of main.go

A shallow embedding of `main.go` (package main of nasuku/commandcast):
credential resolution (`GetAuthKeys`), host-source selection
(`ReadHostsFromFile`), the host resolution loop of the exec action, and the
parallel dispatcher `Execute`.

Conventions of the embedding.

* Go strings are Lean strings (text assumed to be valid UTF-8).
* Calls that leave the program (the file system, the agent socket, the private
  key parser, the ssh_config lookup, `url.Parse`) are fields of `Env`.
* A Go slice of `ssh.AuthMethod` is a header (backing array, length, capacity)
  over a heap of arrays, because the resolution loop appends to a slice that
  shares its backing array with `authKeys`.
* `Execute` is a labelled transition system: the scheduler's choices (which
  goroutine sends next, when the timer fires, which ready case the `select`
  takes) are the labels.
-/

namespace CommandCast

/-! ## Authentication methods and Go slices -/

/-- The value `ssh.ParsePrivateKey` yields; only its identity matters here. -/
abbrev Signer := String

/-- The three ways main.go builds an `ssh.AuthMethod`:
`ssh.PublicKeysCallback(agentClient.Signers)` (line 52), `ssh.PublicKeys(key)`
(line 65) and `ssh.Password(password)` (line 69). -/
inductive AuthMethod where
  | agent : AuthMethod
  | publicKeys (key : Signer) : AuthMethod
  | password (pw : String) : AuthMethod
  deriving DecidableEq, Repr

/-- A Go slice header over an array of `ssh.AuthMethod`. Every slice of the
program starts at offset 0 of its array, so the header is the array, the length
and the capacity. -/
structure Slice where
  arr : Nat
  len : Nat
  cap : Nat
  deriving DecidableEq, Repr

/-- The backing arrays allocated so far; an array cell holds an interface value,
`none` being the nil interface (the zero value of a fresh cell). -/
abbrev Heap := List (List (Option AuthMethod))

/-- The elements a slice header denotes in a heap. -/
def Heap.read (h : Heap) (s : Slice) : List (Option AuthMethod) :=
  (h.getD s.arr []).take s.len

/-- Go's built-in `append(s, xs...)`. When the new length fits the capacity the
elements are written into the backing array of `s` in place and the result
shares that array; otherwise a new array is allocated, of the capacity the
runtime policy `grow newLen oldCap` chooses (at least the new length), and the
old elements are copied. -/
def goAppend (grow : Nat → Nat → Nat) (h : Heap) (s : Slice)
    (xs : List (Option AuthMethod)) : Heap × Slice :=
  let newLen := s.len + xs.length
  if newLen ≤ s.cap then
    let a := h.getD s.arr []
    (h.set s.arr (a.take s.len ++ xs ++ a.drop newLen), { s with len := newLen })
  else
    let newcap := max newLen (grow newLen s.cap)
    (h ++ [h.read s ++ xs ++ List.replicate (newcap - newLen) none],
      { arr := h.length, len := newLen, cap := newcap })

/-- The capacity policy of the gc runtime (`nextslicecap` in runtime/slice.go)
without the rounding to malloc size classes: the new length when it exceeds
twice the old capacity, twice the old capacity otherwise. It agrees with the
runtime for the small arrays of the concrete inputs below (capacities 1, 2
and 4 of 16-byte interface values); for larger arrays the runtime rounds the
size up to a size class and changes its growth factor, which is not followed
here. The theorems that quantify over environments take the policy as the
parameter `Env.grow` and do not depend on this instance. -/
def gcGrow (newLen oldCap : Nat) : Nat :=
  if newLen > 2 * oldCap then newLen else 2 * oldCap

/-! ## The environment -/

/-- The `*url.Userinfo` of a parsed locator: `Username()` and `Password()`
(the password with its presence flag). -/
structure Userinfo where
  username : String
  password : Option String
  deriving DecidableEq, Repr

/-- The two fields of `*url.URL` the exec action reads: `User` (nil when the
locator has no userinfo) and `Host` (host or host:port). -/
structure URL where
  User : Option Userinfo
  Host : String
  deriving DecidableEq, Repr

/-- Everything main.go obtains from outside the program. -/
structure Env where
  /-- The call `net.Dial("unix", os.Getenv("SSH_AUTH_SOCK"))` succeeds. -/
  dialAgent : Bool
  /-- The call `ioutil.ReadFile`: `none` is a non-nil error. -/
  readFile : String → Option String
  /-- The call `ssh.ParsePrivateKey`: `none` is a non-nil error. -/
  parsePrivateKey : String → Option Signer
  /-- The result of `getSSHConfig()`: `none` is the nil config, otherwise the
  lookup `sshCfg.Get(alias, key)` (its error is discarded by the caller). -/
  sshConfig : Option (String → String → String)
  /-- The call `url.Parse`: `none` is a non-nil error. -/
  urlParse : String → Option URL
  /-- The capacity the runtime gives an array that `append` has to allocate. -/
  grow : Nat → Nat → Nat

/-! ## Credential resolver (main.go 45-88) -/

/-- `AgentAuth` (main.go 45-53): nil when the dial fails. -/
def AgentAuth (env : Env) : Option AuthMethod :=
  if env.dialAgent then some AuthMethod.agent else none

/-- `PublicKeyFile` (main.go 55-66): nil when the file cannot be read or its
content does not parse as a private key. -/
def PublicKeyFile (env : Env) (file : String) : Option AuthMethod :=
  match env.readFile file with
  | none => none
  | some buffer =>
    match env.parsePrivateKey buffer with
    | none => none
    | some key => some (AuthMethod.publicKeys key)

/-- `GetAuthPassword` (main.go 68-70): a one-element slice literal, given here
by its elements (it is only ever spread into `append`). -/
def GetAuthPassword (password : String) : List (Option AuthMethod) :=
  [some (AuthMethod.password password)]

/-- The `for _, keyname := range keys` loop of `GetAuthKeys` (main.go 80-85). -/
def GetAuthKeys.loop (env : Env) : List String → Heap × Slice → Heap × Slice
  | [], st => st
  | keyname :: rest, (h, methods) =>
    match PublicKeyFile env keyname with
    | some pkey => GetAuthKeys.loop env rest (goAppend env.grow h methods [some pkey])
    | none => GetAuthKeys.loop env rest (h, methods)

/-- `GetAuthKeys` (main.go 72-88), run in heap `h`. The literal
`[]ssh.AuthMethod{}` is a fresh slice of length and capacity 0. -/
def GetAuthKeys (env : Env) (h : Heap) (keys : List String) : Heap × Slice :=
  let methods : Heap × Slice := (h ++ [[]], { arr := h.length, len := 0, cap := 0 })
  let methods :=
    match AgentAuth env with
    | some aa => goAppend env.grow methods.1 methods.2 [some aa]
    | none => methods
  GetAuthKeys.loop env keys methods

/-! ## Slice well-formedness -/

/-- A slice header is well formed in a heap: its array exists and has exactly
`cap` cells, and the length does not exceed the capacity. -/
def Slice.WF (h : Heap) (s : Slice) : Prop :=
  s.arr < h.length ∧ s.len ≤ s.cap ∧ (h.getD s.arr []).length = s.cap


/-! ## Go string helpers -/

/-- The predicate `unicode.IsSpace`: the Latin-1 spaces and the code points of
the White_Space property above Latin-1. -/
def isSpace (c : Char) : Bool :=
  let n := c.toNat
  n = 0x09 || n = 0x0A || n = 0x0B || n = 0x0C || n = 0x0D || n = 0x20 ||
  n = 0x85 || n = 0xA0 || n = 0x1680 || (0x2000 ≤ n && n ≤ 0x200A) ||
  n = 0x2028 || n = 0x2029 || n = 0x202F || n = 0x205F || n = 0x3000

/-- Remove the leading and trailing characters that satisfy `p`. -/
def trimChars (p : Char → Bool) (l : List Char) : List Char :=
  (l.dropWhile p).rdropWhile p

/-- `strings.TrimSpace`. -/
def TrimSpace (s : String) : String :=
  String.mk (trimChars isSpace s.data)

/-- `strings.Trim(s, cutset)` for a cutset of one character. -/
def Trim (s : String) (cutset : Char) : String :=
  String.mk (trimChars (fun c => c == cutset) s.data)

/-- The pieces of a character list between the occurrences of `sep`; the list
without any `sep` (the empty list included) is a single piece. -/
def splitOn (sep : Char) : List Char → List (List Char)
  | [] => [[]]
  | c :: cs =>
    if c = sep then [] :: splitOn sep cs
    else
      match splitOn sep cs with
      | [] => [[c]]
      | w :: ws => (c :: w) :: ws

/-- `strings.Split(s, sep)` for a separator of one character. -/
def Split (s : String) (sep : Char) : List String :=
  (splitOn sep s.data).map String.mk

/-- `CleanText` (main.go 26-28). -/
def CleanText (cmd : String) : String :=
  TrimSpace (Trim cmd '\n')

/-! ## Host source (main.go 30-43, 181-188)

A `[]string` is a list; the nil slice is the empty list. Every non-nil
`[]string` of the program has at least one element (`append` onto nil, or
`strings.Split`), so `hosts == nil` is `hosts = []`. -/

/-- `ReadHostsFromFile` (main.go 30-43). -/
def ReadHostsFromFile (env : Env) (file : String) : List String :=
  match env.readFile file with
  | none => []
  | some buffer =>
    (Split (Trim buffer '\n') '\n').filterMap fun host =>
      if TrimSpace host ≠ "" then some (TrimSpace host) else none

/-- The host source selection of the exec action (main.go 181-188). -/
def selectHosts (env : Env) (hostFileName hostString : String) : List String :=
  let hosts : List String :=
    if hostFileName ≠ "" then ReadHostsFromFile env hostFileName else []
  if hosts = [] ∧ hostString ≠ "" then Split hostString ',' else hosts

/-- The spec's words for the tokens of a host file: its non-blank lines,
trimmed, in file order. -/
def nonBlankLinesTrimmed (content : String) : List String :=
  ((Split content '\n').map TrimSpace).filter fun line => line ≠ ""

/-! ## Host identity resolution (main.go 213-257) -/

/-- The fields of `ssh.ClientConfig` the composite literal at main.go 251-255
sets from program data (`HostKeyCallback` is the constant
`ssh.InsecureIgnoreHostKey()`). -/
structure ClientConfig where
  User : String
  Auth : Slice
  deriving DecidableEq, Repr

/-- Modelled from the spec: the declaration of `HostConfig` is in a file of the
repository other than main.go. These are the fields the composite literal at
main.go 247-256 sets (spec section 3, ResolvedHost: user, address,
timeoutSeconds, authMethods); `ClientConfig` is a pointer, `none` being nil. -/
structure HostConfig where
  User : String
  Host : String
  Timeout : Int
  ClientConfig : Option ClientConfig
  deriving DecidableEq, Repr

/-- The zero value of `HostConfig`, which `make([]HostConfig, n)` fills the
slice with. -/
def HostConfig.zero : HostConfig :=
  { User := "", Host := "", Timeout := 0, ClientConfig := none }

/-- The alias lookup of one loop iteration (main.go 216-227): the host name and
the user name after the ssh_config substitutions. -/
def aliasLookup (env : Env) (user hostName : String) : String × String :=
  match env.sshConfig with
  | some get =>
    let hn := get hostName "Hostname"
    let un := get hostName "User"
    (if hn ≠ "" then hn else hostName, if un ≠ "" then un else user)
  | none => (hostName, user)

/-- The body of the resolution loop for one token (main.go 216-256): the heap
after the iteration, and the host config stored at index `i`, or `none` when
the iteration ends at `continue`. -/
def resolveHost (env : Env) (user : String) (timeoutSec : Int) (authKeys : Slice) (h : Heap)
    (hostName : String) : Heap × Option HostConfig :=
  let looked := aliasLookup env user hostName
  let hostName := looked.1
  let userName := looked.2
  match env.urlParse ("ssh://" ++ hostName) with
  | none => (h, none)
  | some urlInfo =>
    if urlInfo.Host = "" then (h, none)
    else
      let username := userName
      let keys := authKeys
      match urlInfo.User with
      | none =>
        (h, some { User := username, Host := urlInfo.Host, Timeout := timeoutSec,
                   ClientConfig := some { User := username, Auth := keys } })
      | some u =>
        let username := if u.username ≠ "" then u.username else username
        let hk : Heap × Slice :=
          match u.password with
          | some password => goAppend env.grow h keys (GetAuthPassword password)
          | none => (h, keys)
        (hk.1, some { User := username, Host := urlInfo.Host, Timeout := timeoutSec,
                      ClientConfig := some { User := username, Auth := hk.2 } })

/-- The loop `for i, hostName := range hosts` (main.go 214-257) from index `i`
on, over the heap and the slice `hostConfigs`. -/
def resolveLoop (env : Env) (user : String) (timeoutSec : Int) (authKeys : Slice) :
    Nat → List String → Heap × List HostConfig → Heap × List HostConfig
  | _, [], st => st
  | i, hostName :: rest, (h, hostConfigs) =>
    match resolveHost env user timeoutSec authKeys h hostName with
    | (h1, some hc) => resolveLoop env user timeoutSec authKeys (i + 1) rest (h1, hostConfigs.set i hc)
    | (h1, none) => resolveLoop env user timeoutSec authKeys (i + 1) rest (h1, hostConfigs)

/-- The lines main.go 213-257: `hostConfigs := make([]HostConfig, len(hosts))`
followed by the loop. The result is the final heap and the batch. -/
def resolveHosts (env : Env) (user : String) (timeoutSec : Int) (authKeys : Slice) (h : Heap)
    (hosts : List String) : Heap × List HostConfig :=
  resolveLoop env user timeoutSec authKeys 0 hosts (h, List.replicate hosts.length HostConfig.zero)

/-- A token is invalid for the loop: after the alias substitution it fails to
parse, or parses with an empty host (the condition of main.go 230). -/
def invalidToken (env : Env) (user hostName : String) : Bool :=
  match env.urlParse ("ssh://" ++ (aliasLookup env user hostName).1) with
  | none => true
  | some urlInfo => urlInfo.Host = ""

/-- The authentication methods of a host config, read in a heap (nil client
config: none). -/
def HostConfig.auth (h : Heap) (hc : HostConfig) : List (Option AuthMethod) :=
  match hc.ClientConfig with
  | some c => h.read c.Auth
  | none => []

/-! ## The dispatcher `Execute` (main.go 90-120) -/

/-- What the dispatcher calls outside main.go: the colour wrapper `hostColor`
applied to a host config, and the method `HostConfig.ExecuteCmd` (declared in
another file of the repository), which yields the captured text or the message
of its error. The goroutine index is an argument so that two equal host configs
may answer differently. -/
structure ExecEnv where
  hostColor : HostConfig → String
  ExecuteCmd : Nat → HostConfig → String → Except String String

/-- What the consumer writes: `fmt.Println(res)` or `color.Red(msg)`. -/
inductive Output where
  | println (res : String) : Output
  | red (msg : String) : Output
  deriving DecidableEq, Repr

/-- The string goroutine `k` sends on `results` (main.go 98-105):
`fmt.Sprintf("%s > %s\n%s\n", hostColor(host), cmd, result)`. -/
def message (x : ExecEnv) (cmd : String) (k : Nat) (host : HostConfig) : String :=
  let result : String :=
    match x.ExecuteCmd k host cmd with
    | Except.error err => err
    | Except.ok text => text
  x.hostColor host ++ " > " ++ cmd ++ "\n" ++ result ++ "\n"

/-- A state of one call of `Execute`. -/
structure ExecState where
  /-- For each goroutine, whether it has sent its result. -/
  sent : List Bool
  /-- The buffer of the channel `results` (capacity 10), oldest first. -/
  results : List String
  /-- The timer of `time.After` has fired. -/
  fired : Bool
  /-- The counter of the consumer loop. -/
  i : Nat
  /-- The consumer has taken the `<-timeout` case and returned. -/
  timedOut : Bool
  /-- What has been written, oldest first. -/
  out : List Output
  /-- Log of the values the consumer has received from `results`. -/
  recvd : List String
  deriving DecidableEq, Repr

/-- One scheduling choice. -/
inductive Label where
  /-- Goroutine `k` finishes `ExecuteCmd` and sends its string on `results`. -/
  | send (k : Nat) : Label
  /-- The `select` takes `case res := <-results`. -/
  | recv : Label
  /-- The deadline passes: the timer channel becomes ready. -/
  | fire : Label
  /-- The `select` takes `case <-timeout`. -/
  | timeout : Label
  deriving DecidableEq, Repr

/-- The state after main.go 92-107: every goroutine started, nothing sent. -/
def Execute.init (hosts : List HostConfig) : ExecState :=
  { sent := List.replicate hosts.length false, results := [], fired := false, i := 0,
    timedOut := false, out := [], recvd := [] }

/-- One step of `Execute`; `none` when the choice is not enabled. -/
def Execute.step (x : ExecEnv) (cmd : String) (hosts : List HostConfig) (st : ExecState) :
    Label → Option ExecState
  | Label.send k =>
    match hosts[k]?, st.sent[k]? with
    | some host, some false =>
      if st.results.length < 10 then
        some { st with sent := st.sent.set k true,
                       results := st.results ++ [message x cmd k host] }
      else none
    | _, _ => none
  | Label.recv =>
    if st.timedOut = true ∨ ¬ st.i < hosts.length then none
    else
      match st.results with
      | [] => none
      | res :: rest =>
        some { st with results := rest, i := st.i + 1,
                       out := if res ≠ "" then st.out ++ [Output.println res] else st.out,
                       recvd := st.recvd ++ [res] }
  | Label.fire => if st.fired = true then none else some { st with fired := true }
  | Label.timeout =>
    if st.fired = true ∧ st.timedOut = false ∧ st.i < hosts.length then
      some { st with out := st.out ++ [Output.red "Timed out!"], timedOut := true }
    else none

/-- A run: the steps of a list of choices, `none` as soon as one is not
enabled. -/
def Execute.run (x : ExecEnv) (cmd : String) (hosts : List HostConfig) :
    ExecState → List Label → Option ExecState
  | st, [] => some st
  | st, l :: ls =>
    match Execute.step x cmd hosts st l with
    | some st1 => Execute.run x cmd hosts st1 ls
    | none => none

/-- The result blocks of a batch: the string of each goroutine, in batch
order. -/
def blocks (x : ExecEnv) (cmd : String) (hosts : List HostConfig) : List String :=
  hosts.enum.map fun p => message x cmd p.1 p.2

/-- The strings of the goroutines that have sent, in batch order. -/
def sentMsgs : List String → List Bool → List String
  | m :: ms, true :: bs => m :: sentMsgs ms bs
  | _ :: ms, false :: bs => sentMsgs ms bs
  | _, _ => []

/-! ## The exec action (main.go 178-294) -/

/-- The flags of the exec command (main.go 130-177). -/
structure Flags where
  interactive : Bool
  hostString : String
  hostFileName : String
  user : String
  timeoutSec : Int
  keyString : String

/-- The calls and writes of the action that the properties below speak of, in
program order. -/
inductive Effect where
  /-- The write `color.Red(msg)`. -/
  | red (msg : String) : Effect
  /-- The call `url.Parse(rawURL)` of one resolution iteration. -/
  | parse (rawURL : String) : Effect
  /-- The write of main.go 260. -/
  | printKeys (keys : List String) : Effect
  /-- The write of main.go 261. -/
  | printHosts (hostConfigs : List HostConfig) : Effect
  /-- The write of the prompt, with the echoed command in single command mode. -/
  | prompt (cmd : String) : Effect
  /-- The call `Execute(cmd, hostConfigs, to)`. -/
  | execute (cmd : String) (hostConfigs : List HostConfig) (timeoutSec : Int) : Effect
  /-- The call `hostConfig.StopSession()`. -/
  | stopSession (hostConfig : HostConfig) : Effect
  deriving DecidableEq, Repr

/-- The interactive loop (main.go 274-287) over the lines that successive reads
of standard input deliver. The flag tells whether the loop ends (at `exit`);
at the end of input `ReadString` returns the empty string and the loop keeps
prompting without ever leaving. -/
def interactiveLoop (hostConfigs : List HostConfig) (timeoutSec : Int) :
    List String → List Effect × Bool
  | [] => ([Effect.prompt ""], false)
  | line :: rest =>
    let cmd := CleanText line
    if cmd = "exit" then ([Effect.prompt ""], true)
    else
      let r := interactiveLoop hostConfigs timeoutSec rest
      (Effect.prompt "" ::
        ((if cmd ≠ "" then [Effect.execute cmd hostConfigs timeoutSec] else []) ++ r.1), r.2)

/-- The exec action (main.go 178-294): `arg` is `c.Args().First()`, `stdin`
the lines read in interactive mode. The result is the trace of effects and
whether the action returns. -/
def Action (env : Env) (f : Flags) (arg : String) (stdin : List String) :
    List Effect × Bool :=
  let keys := Split f.keyString ','
  let hosts := selectHosts env f.hostFileName f.hostString
  let ak := GetAuthKeys env [] keys
  if ak.2.len < 1 then ([Effect.red "Key(s) doesn't exist."], true)
  else
    let resolved := resolveHosts env f.user f.timeoutSec ak.2 ak.1 hosts
    let hostConfigs := resolved.2
    let t1 : List Effect :=
      hosts.map (fun hostName => Effect.parse ("ssh://" ++ (aliasLookup env f.user hostName).1))
        ++ [Effect.printKeys keys, Effect.printHosts hostConfigs]
    let stop : List Effect := hostConfigs.map Effect.stopSession
    if f.interactive then
      let r := interactiveLoop hostConfigs f.timeoutSec stdin
      if r.2 then (t1 ++ r.1 ++ stop, true) else (t1 ++ r.1, false)
    else
      let cmd := CleanText arg
      if cmd ≠ "" then
        (t1 ++ [Effect.prompt cmd, Effect.execute cmd hostConfigs f.timeoutSec] ++ stop, true)
      else (t1 ++ stop, true)

/-! ## A reference instance of the environment -/

/-- An ASCII digit. -/
def digitChar (c : Char) : Bool :=
  48 ≤ c.toNat && c.toNat ≤ 57

/-- The test `validOptionalPort` of net/url: empty, or a colon and digits. -/
def validOptionalPort : List Char → Bool
  | [] => true
  | c :: ds => c = ':' && ds.all digitChar

/-- An ASCII letter or digit. -/
def isAlnum (c : Char) : Bool :=
  (48 ≤ c.toNat && c.toNat ≤ 57) || (65 ≤ c.toNat && c.toNat ≤ 90) ||
    (97 ≤ c.toNat && c.toNat ≤ 122)

/-- The bytes `shouldEscape(c, encodeHost)` of net/url lets through: letters,
digits, the sub-delimiters and brackets a host may hold, and `-_.~`. -/
def hostCharOK (c : Char) : Bool :=
  isAlnum c || "!$&()*+,;=:[]<>-_.~".data.contains c ||
    c = Char.ofNat 39 || c = Char.ofNat 34 || 0x80 ≤ c.toNat

/-- The test `validUserinfo` of net/url on one rune. -/
def userinfoCharOK (c : Char) : Bool :=
  isAlnum c || "-._:~!$&()*+,;=%@".data.contains c || c = Char.ofNat 39

/-- A letter, a digit, a dot, a hyphen or an underscore: the characters of
plain user names, passwords and host names. -/
def plainChar (c : Char) : Bool :=
  isAlnum c || c = '.' || c = '-' || c = '_'

/-- The function `parseHost` of net/url on a host without percent-escapes. -/
def parseHost (host : List Char) : Option (List Char) :=
  let portOK : Bool :=
    if host.head? = some '[' then
      if host.contains ']' then
        validOptionalPort (host.reverse.takeWhile (fun c => c ≠ ']')).reverse
      else false
    else if host.contains ':' then
      validOptionalPort (':' :: (host.reverse.takeWhile (fun c => c ≠ ':')).reverse)
    else true
  if portOK && host.all hostCharOK then some host else none

/-- The function `parseAuthority` of net/url on an authority without
percent-escapes: the userinfo is what precedes the last `@`. -/
def parseAuthority (authority : List Char) : Option URL :=
  if authority.contains '@' then
    let host := (authority.reverse.takeWhile (fun c => c ≠ '@')).reverse
    let userinfo := authority.take (authority.length - host.length - 1)
    match parseHost host with
    | none => none
    | some hst =>
      if userinfo.all userinfoCharOK then
        if userinfo.contains ':' then
          some { User := some { username := String.mk (userinfo.takeWhile (fun c => c ≠ ':')),
                                password := some (String.mk
                                  ((userinfo.dropWhile (fun c => c ≠ ':')).drop 1)) },
                 Host := String.mk hst }
        else
          some { User := some { username := String.mk userinfo, password := none },
                 Host := String.mk hst }
      else none
  else
    match parseHost authority with
    | none => none
    | some hst => some { User := none, Host := String.mk hst }

/-- A reference instance of `url.Parse` for the locators the action builds
(`"ssh://" + token`), following net/url: the part before `#` must hold no
control character, and the authority is what stands between `ssh://` and the
first `/`, `?` or `#`. It covers tokens without percent-escapes; a token with a
`%` (which net/url would try to decode) is rejected here. The theorems that
quantify over environments do not depend on this instance. -/
def urlParse (rawURL : String) : Option URL :=
  match rawURL.data with
  | 's' :: 's' :: 'h' :: ':' :: '/' :: '/' :: t =>
    if t.contains '%' then none
    else if (t.takeWhile (fun c => c ≠ '#')).any (fun c => c.toNat < 0x20 || c.toNat = 0x7f)
    then none
    else parseAuthority (t.takeWhile fun c => c ≠ '/' && c ≠ '?' && c ≠ '#')
  | _ => none

/-- A reference environment: no agent, the key files of `files` readable, every
file content a private key, no ssh_config, the gc capacity policy. -/
def refEnv (files : List (String × String)) : Env :=
  { dialAgent := false
    readFile := fun path => (files.lookup path)
    parsePrivateKey := fun buffer => some buffer
    sshConfig := none
    urlParse := urlParse
    grow := gcGrow }

/-! ## Concrete inputs -/

/-- One readable key file, no agent, no ssh_config. -/
def envOneKey : Env := refEnv [("id_rsa", "KEY")]

/-- Three readable key files, no agent, no ssh_config. -/
def envThreeKeys : Env := refEnv [("k1", "KEY1"), ("k2", "KEY2"), ("k3", "KEY3")]

/-- One readable key file and an ssh_config whose `Host *` block sets
`Hostname gw.example.com` (and no `User`). -/
def envWildcardAlias : Env :=
  { envOneKey with
    sshConfig := some fun _ key => if key = "Hostname" then "gw.example.com" else "" }

/-- One readable key file and an ssh_config whose `Host *` block sets
`User carol` (and no `Hostname`). -/
def envUserAlias : Env :=
  { envOneKey with
    sshConfig := some fun _ key => if key = "User" then "carol" else "" }

/-! ## Invariants of the dispatcher -/

/-- The invariant of every run of `Execute`: one flag per goroutine, the
channel within its capacity, the loop counter equal to the number of received
strings and at most the batch size, the received and buffered strings together
a rearrangement of the strings of the goroutines that have sent, and the output
equal to one `Println` per received string followed by the timeout notice if the
consumer has timed out. -/
def Execute.Inv (x : ExecEnv) (cmd : String) (hosts : List HostConfig) (st : ExecState) :
    Prop :=
  st.sent.length = hosts.length ∧
  st.results.length ≤ 10 ∧
  st.i = st.recvd.length ∧
  st.i ≤ hosts.length ∧
  (st.recvd ++ st.results).Perm (sentMsgs (blocks x cmd hosts) st.sent) ∧
  st.out = st.recvd.map Output.println ++
    (if st.timedOut = true then [Output.red "Timed out!"] else [])

/-- The number of steps a run without the deadline can still take: one send
per goroutine that has not sent, one receive per remaining loop iteration. -/
def Execute.remaining (hosts : List HostConfig) (st : ExecState) : Nat :=
  st.sent.count false + (hosts.length - st.i)

/-- A dispatcher environment for `demoHosts`: the host rendered by its address,
`a.example.com` answering with the text `up 3 days` and every other host
failing with the error `dial failed`. -/
def demoExecText : ExecEnv :=
  { hostColor := fun host => host.Host
    ExecuteCmd := fun _ host _ =>
      if host.Host = "a.example.com" then Except.ok "up 3 days"
      else Except.error "dial failed" }

/-- A host that answers with empty output under `demoExec`. -/
def demoHostA : HostConfig :=
  { User := "alice", Host := "a.example.com", Timeout := 5, ClientConfig := none }

/-- A host whose execution fails under `demoExec`. -/
def demoHostB : HostConfig :=
  { User := "alice", Host := "b.example.com", Timeout := 5, ClientConfig := none }

/-- A batch of two hosts. -/
def demoHosts : List HostConfig := [demoHostA, demoHostB]

/-- A dispatcher environment for `demoHosts`: the host rendered by its address,
`a.example.com` answering with empty output and every other host failing. -/
def demoExec : ExecEnv :=
  { hostColor := fun host => host.Host
    ExecuteCmd := fun _ host _ =>
      if host.Host = "a.example.com" then Except.ok "" else Except.error "dial failed" }
/-! ## Slices: append and framing -/

theorem Heap.getD_set_self (h : Heap) (i : Nat) (a : List (Option AuthMethod))
    (hi : i < h.length) : (h.set i a).getD i [] = a := by
  simp [List.getD_eq_getElem?_getD, List.getElem?_set, hi]

theorem Heap.getD_append_new (h : Heap) (a : List (Option AuthMethod)) :
    (h ++ [a]).getD h.length [] = a := by
  simp [List.getD_eq_getElem?_getD]

theorem Heap.getD_append_old (h : Heap) (a : List (Option AuthMethod)) (i : Nat)
    (hi : i < h.length) : (h ++ [a]).getD i [] = h.getD i [] := by
  simp [List.getD_eq_getElem?_getD, List.getElem?_append_left hi]

theorem goAppend_fits (grow : Nat → Nat → Nat) (h : Heap) (s : Slice)
    (xs : List (Option AuthMethod)) (hc : s.len + xs.length ≤ s.cap) :
    goAppend grow h s xs =
      (h.set s.arr ((h.getD s.arr []).take s.len ++ xs ++
          (h.getD s.arr []).drop (s.len + xs.length)),
        { s with len := s.len + xs.length }) := by
  simp [goAppend, hc]

theorem goAppend_grows (grow : Nat → Nat → Nat) (h : Heap) (s : Slice)
    (xs : List (Option AuthMethod)) (hc : ¬ s.len + xs.length ≤ s.cap) :
    goAppend grow h s xs =
      (h ++ [h.read s ++ xs ++ List.replicate
          (max (s.len + xs.length) (grow (s.len + xs.length) s.cap) - (s.len + xs.length)) none],
        { arr := h.length, len := s.len + xs.length,
          cap := max (s.len + xs.length) (grow (s.len + xs.length) s.cap) }) := by
  simp [goAppend, hc]

theorem goAppend_spec (grow : Nat → Nat → Nat) (h : Heap) (s : Slice)
    (xs : List (Option AuthMethod)) (hwf : s.WF h) :
    (goAppend grow h s xs).2.WF (goAppend grow h s xs).1 ∧
    (goAppend grow h s xs).1.read (goAppend grow h s xs).2 = h.read s ++ xs ∧
    (goAppend grow h s xs).2.len = s.len + xs.length ∧
    h.length ≤ (goAppend grow h s xs).1.length := by
  obtain ⟨h1, h2, h3⟩ := hwf
  by_cases hc : s.len + xs.length ≤ s.cap
  · rw [goAppend_fits grow h s xs hc]
    have hlen : ((h.getD s.arr []).take s.len).length = s.len := by
      rw [List.length_take]; omega
    refine ⟨⟨?_, ?_, ?_⟩, ?_, ?_, ?_⟩
    · show s.arr < (h.set s.arr _).length
      simpa using h1
    · exact hc
    · show ((h.set s.arr _).getD s.arr []).length = s.cap
      rw [Heap.getD_set_self h _ _ h1]
      simp only [List.length_append, hlen, List.length_drop]
      omega
    · show ((h.set s.arr _).getD s.arr []).take (s.len + xs.length) = _
      rw [Heap.getD_set_self h _ _ h1]
      have : s.len + xs.length = ((h.getD s.arr []).take s.len ++ xs).length := by
        simp only [List.length_append, hlen]
      rw [this, List.take_left]
      rfl
    · rfl
    · simp
  · rw [goAppend_grows grow h s xs hc]
    have hlen : (h.read s).length = s.len := by
      unfold Heap.read
      rw [List.length_take]; omega
    refine ⟨⟨?_, ?_, ?_⟩, ?_, ?_, ?_⟩
    · show h.length < (h ++ [_]).length
      simp
    · show s.len + xs.length ≤ max _ _
      exact le_max_left _ _
    · show ((h ++ [_]).getD h.length []).length = max _ _
      rw [Heap.getD_append_new]
      simp only [List.length_append, hlen, List.length_replicate]
      have := le_max_left (s.len + xs.length) (grow (s.len + xs.length) s.cap)
      omega
    · show ((h ++ [_]).getD h.length []).take (s.len + xs.length) = _
      rw [Heap.getD_append_new]
      have : s.len + xs.length = (h.read s ++ xs).length := by
        simp only [List.length_append, hlen]
      rw [this, List.take_left]
    · rfl
    · simp

/-- Framing for `append`: a well-formed slice `t` reads the same after an
append to `s` when it lies in another array, or in the array of `s` within the
length of `s` (the append writes only cells from index `s.len` on). -/
theorem goAppend_frame (grow : Nat → Nat → Nat) (h : Heap) (s t : Slice)
    (xs : List (Option AuthMethod)) (hwf : s.WF h) (ht : t.WF h)
    (hdis : t.arr ≠ s.arr ∨ t.len ≤ s.len) :
    t.WF (goAppend grow h s xs).1 ∧ (goAppend grow h s xs).1.read t = h.read t := by
  obtain ⟨h1, h2, h3⟩ := hwf
  obtain ⟨t1, t2, t3⟩ := ht
  by_cases hc : s.len + xs.length ≤ s.cap
  · rw [goAppend_fits grow h s xs hc]
    have hlen : ((h.getD s.arr []).take s.len).length = s.len := by
      rw [List.length_take]; omega
    by_cases ha : t.arr = s.arr
    · have hts : t.len ≤ s.len := by
        rcases hdis with hd | hd
        · exact absurd ha hd
        · exact hd
      refine ⟨⟨?_, t2, ?_⟩, ?_⟩
      · show t.arr < (h.set s.arr _).length
        simpa using t1
      · show ((h.set s.arr _).getD t.arr []).length = t.cap
        rw [ha, Heap.getD_set_self h _ _ h1]
        rw [ha] at t3
        simp only [List.length_append, hlen, List.length_drop]
        omega
      · show ((h.set s.arr _).getD t.arr []).take t.len = (h.getD t.arr []).take t.len
        rw [ha, Heap.getD_set_self h _ _ h1, List.append_assoc]
        rw [List.take_append_of_le_length (by omega)]
        rw [List.take_take]
        congr 1
        omega
    · have hget : (h.set s.arr ((h.getD s.arr []).take s.len ++ xs ++
          (h.getD s.arr []).drop (s.len + xs.length))).getD t.arr [] = h.getD t.arr [] := by
        simp [List.getD_eq_getElem?_getD, List.getElem?_set, Ne.symm ha]
      refine ⟨⟨?_, t2, ?_⟩, ?_⟩
      · show t.arr < (h.set s.arr _).length
        simpa using t1
      · show ((h.set s.arr _).getD t.arr []).length = t.cap
        rw [hget]; exact t3
      · show ((h.set s.arr _).getD t.arr []).take t.len = (h.getD t.arr []).take t.len
        rw [hget]
  · rw [goAppend_grows grow h s xs hc]
    refine ⟨⟨?_, t2, ?_⟩, ?_⟩
    · show t.arr < (h ++ [_]).length
      simp; omega
    · show ((h ++ [_]).getD t.arr []).length = t.cap
      rw [Heap.getD_append_old h _ _ t1]; exact t3
    · show ((h ++ [_]).getD t.arr []).take t.len = (h.getD t.arr []).take t.len
      rw [Heap.getD_append_old h _ _ t1]


/-! ## Credential resolver -/

theorem PublicKeyFile_eq (env : Env) (file : String) :
    PublicKeyFile env file =
      ((env.readFile file).bind env.parsePrivateKey).map AuthMethod.publicKeys := by
  unfold PublicKeyFile
  cases env.readFile file with
  | none => rfl
  | some buffer =>
    simp only [Option.some_bind]
    cases env.parsePrivateKey buffer <;> rfl

theorem GetAuthKeys.loop_spec (env : Env) (keys : List String) (h : Heap) (methods : Slice)
    (hwf : methods.WF h) :
    (GetAuthKeys.loop env keys (h, methods)).2.WF (GetAuthKeys.loop env keys (h, methods)).1 ∧
    (GetAuthKeys.loop env keys (h, methods)).1.read (GetAuthKeys.loop env keys (h, methods)).2 =
      h.read methods ++ (keys.filterMap (PublicKeyFile env)).map some := by
  induction keys generalizing h methods with
  | nil => exact ⟨hwf, by simp [GetAuthKeys.loop]⟩
  | cons keyname rest ih =>
    cases hp : PublicKeyFile env keyname with
    | none =>
      simp only [GetAuthKeys.loop, hp, List.filterMap_cons]
      exact ih h methods hwf
    | some pkey =>
      simp only [GetAuthKeys.loop, hp, List.filterMap_cons]
      obtain ⟨hw1, hr1, -, -⟩ := goAppend_spec env.grow h methods [some pkey] hwf
      obtain ⟨hw2, hr2⟩ := ih _ _ hw1
      refine ⟨hw2, ?_⟩
      rw [hr2, hr1]
      simp

theorem emptySlice_WF (h : Heap) :
    Slice.WF (h ++ [[]]) { arr := h.length, len := 0, cap := 0 } := by
  refine ⟨by simp, le_refl _, ?_⟩
  show ((h ++ [[]]).getD h.length []).length = 0
  rw [Heap.getD_append_new]
  rfl

theorem emptySlice_read (h : Heap) :
    Heap.read (h ++ [[]]) { arr := h.length, len := 0, cap := 0 } = [] := by
  simp [Heap.read]

theorem GetAuthKeys_spec (env : Env) (h : Heap) (keys : List String) :
    (GetAuthKeys env h keys).2.WF (GetAuthKeys env h keys).1 ∧
    (GetAuthKeys env h keys).1.read (GetAuthKeys env h keys).2 =
      (if env.dialAgent = true then [some AuthMethod.agent] else []) ++
        (keys.filterMap (PublicKeyFile env)).map some := by
  unfold GetAuthKeys AgentAuth
  cases hd : env.dialAgent with
  | true =>
    simp only [if_true]
    obtain ⟨hw1, hr1, -, -⟩ :=
      goAppend_spec env.grow (h ++ [[]]) { arr := h.length, len := 0, cap := 0 }
        [some AuthMethod.agent] (emptySlice_WF h)
    obtain ⟨hw2, hr2⟩ := GetAuthKeys.loop_spec env keys _ _ hw1
    refine ⟨hw2, ?_⟩
    rw [hr2, hr1, emptySlice_read]
    rfl
  | false =>
    simp only [Bool.false_eq_true, if_false]
    obtain ⟨hw2, hr2⟩ := GetAuthKeys.loop_spec env keys _ _ (emptySlice_WF h)
    refine ⟨hw2, ?_⟩
    rw [hr2, emptySlice_read]

theorem filterMap_PublicKeyFile (env : Env) (keys : List String) :
    (keys.filterMap (PublicKeyFile env)).map some =
      (keys.filterMap fun keyname =>
          (env.readFile keyname).bind env.parsePrivateKey).map
          (fun key => some (AuthMethod.publicKeys key)) := by
  induction keys with
  | nil => rfl
  | cons k rest ih =>
    simp only [List.filterMap_cons, PublicKeyFile_eq]
    cases (env.readFile k).bind env.parsePrivateKey with
    | none => simpa [PublicKeyFile_eq] using ih
    | some key => simpa [PublicKeyFile_eq] using ih

/-- C10: `GetAuthKeys` returns exactly the agent method first, if and only if
the agent socket can be dialled, followed by one public-key method for each key
path that reads and parses, in the order of the input list (a repeated path
contributes each time it is listed); a path that fails to read or to parse
contributes nothing and the function returns no error, so the result has at
most `1 + len(keys)` methods. -/
theorem GetAuthKeys_exact (env : Env) (h : Heap) (keys : List String) :
    (GetAuthKeys env h keys).1.read (GetAuthKeys env h keys).2 =
      (if env.dialAgent = true then [some AuthMethod.agent] else []) ++
        (keys.filterMap fun keyname =>
          (env.readFile keyname).bind env.parsePrivateKey).map
          (fun key => some (AuthMethod.publicKeys key)) ∧
    ((GetAuthKeys env h keys).1.read (GetAuthKeys env h keys).2).length ≤ 1 + keys.length := by
  have hspec := (GetAuthKeys_spec env h keys).2
  have hmap := filterMap_PublicKeyFile env keys
  refine ⟨by rw [hspec, hmap], ?_⟩
  rw [hspec]
  have hle : (keys.filterMap (PublicKeyFile env)).length ≤ keys.length :=
    List.length_filterMap_le _ _
  cases hd : env.dialAgent with
  | true =>
    simp only [if_true, List.length_append, List.length_map, List.length_cons,
      List.length_nil]
    omega
  | false =>
    simp only [Bool.false_eq_true, if_false, List.length_append, List.length_map,
      List.length_nil]
    omega

/-! ## The reference locator parser on plain tokens -/

theorem takeWhile_append_stop (p : Char → Bool) (a b : List Char) (x : Char)
    (ha : ∀ c ∈ a, p c = true) (hx : p x = false) : (a ++ x :: b).takeWhile p = a := by
  induction a with
  | nil => simp [List.takeWhile_cons, hx]
  | cons c cs ih =>
    have hc : p c = true := ha c (by simp)
    simp only [List.cons_append, List.takeWhile_cons, hc, if_true]
    rw [ih (fun d hd => ha d (by simp [hd]))]

theorem dropWhile_append_stop (p : Char → Bool) (a b : List Char) (x : Char)
    (ha : ∀ c ∈ a, p c = true) (hx : p x = false) : (a ++ x :: b).dropWhile p = x :: b := by
  induction a with
  | nil => simp [List.dropWhile_cons, hx]
  | cons c cs ih =>
    have hc : p c = true := ha c (by simp)
    simp only [List.cons_append, List.dropWhile_cons, hc, if_true]
    exact ih (fun d hd => ha d (by simp [hd]))

theorem takeWhile_all (p : Char → Bool) (a : List Char) (ha : ∀ c ∈ a, p c = true) :
    a.takeWhile p = a := by
  induction a with
  | nil => rfl
  | cons c cs ih =>
    have hc : p c = true := ha c (by simp)
    simp only [List.takeWhile_cons, hc, if_true]
    rw [ih (fun d hd => ha d (by simp [hd]))]

/-- What follows the last occurrence of `x`. -/
theorem suffix_after_last (x : Char) (a b : List Char) (hb : ∀ c ∈ b, c ≠ x) :
    ((a ++ x :: b).reverse.takeWhile fun c => c ≠ x).reverse = b := by
  have hrev : (a ++ x :: b).reverse = b.reverse ++ x :: a.reverse := by simp
  rw [hrev, takeWhile_append_stop _ _ _ _ (by intro c hc; simpa using hb c (by simpa using hc))
    (by simp)]
  simp

theorem plainChar_toNat (c : Char) (hc : plainChar c = true) :
    (48 ≤ c.toNat ∧ c.toNat ≤ 57) ∨ (65 ≤ c.toNat ∧ c.toNat ≤ 90) ∨
      (97 ≤ c.toNat ∧ c.toNat ≤ 122) ∨ c.toNat = 46 ∨ c.toNat = 45 ∨ c.toNat = 95 := by
  simp only [plainChar, isAlnum, Bool.or_eq_true, Bool.and_eq_true, decide_eq_true_eq] at hc
  rcases hc with ((h | h) | h) | h
  · rcases h with (h | h) | h
    · exact Or.inl h
    · exact Or.inr (Or.inl h)
    · exact Or.inr (Or.inr (Or.inl h))
  · subst h; decide
  · subst h; decide
  · subst h; decide

theorem plainChar_ne (c x : Char) (hc : plainChar c = true) (hx : plainChar x = false) :
    c ≠ x := by
  intro h
  subst h
  rw [hc] at hx
  exact absurd hx (by simp)

theorem digitChar_plain (c : Char) (hc : digitChar c = true) : plainChar c = true := by
  simp only [digitChar, Bool.and_eq_true, decide_eq_true_eq] at hc
  simp only [plainChar, isAlnum, Bool.or_eq_true, Bool.and_eq_true, decide_eq_true_eq]
  exact Or.inl (Or.inl (Or.inl (Or.inl (Or.inl hc))))

theorem plainChar_hostCharOK (c : Char) (hc : plainChar c = true) : hostCharOK c = true := by
  simp only [plainChar, Bool.or_eq_true, decide_eq_true_eq] at hc
  rcases hc with ((h | h) | h) | h
  · simp [hostCharOK, h]
  · subst h; decide
  · subst h; decide
  · subst h; decide

theorem plainChar_userinfoCharOK (c : Char) (hc : plainChar c = true) :
    userinfoCharOK c = true := by
  simp only [plainChar, Bool.or_eq_true, decide_eq_true_eq] at hc
  rcases hc with ((h | h) | h) | h
  · simp [userinfoCharOK, h]
  · subst h; decide
  · subst h; decide
  · subst h; decide

theorem plainChar_not_ctl (c : Char) (hc : plainChar c = true) :
    (decide (c.toNat < 0x20) || decide (c.toNat = 0x7f)) = false := by
  have := plainChar_toNat c hc
  simp only [Bool.or_eq_false_iff, decide_eq_false_iff_not]
  omega

theorem parseHost_plain (host port : List Char)
    (hh : ∀ c ∈ host, plainChar c = true) (hp : ∀ c ∈ port, digitChar c = true) :
    parseHost (host ++ ':' :: port) = some (host ++ ':' :: port) := by
  have hport : ((host ++ ':' :: port).reverse.takeWhile fun c => c ≠ ':').reverse = port :=
    suffix_after_last ':' host port
      (fun c hc => plainChar_ne c ':' (digitChar_plain c (hp c hc)) (by decide))
  have hall : (host ++ ':' :: port).all hostCharOK = true := by
    simp only [List.all_eq_true, List.mem_append, List.mem_cons]
    rintro c (hc | rfl | hc)
    · exact plainChar_hostCharOK c (hh c hc)
    · decide
    · exact plainChar_hostCharOK c (digitChar_plain c (hp c hc))
  have hvalid : validOptionalPort (':' :: port) = true := by
    simp only [validOptionalPort, decide_True, Bool.true_and, List.all_eq_true]
    exact hp
  have hcontains : (host ++ ':' :: port).contains ':' = true := by simp
  have hhead : ¬ (host ++ ':' :: port).head? = some '[' := by
    cases host with
    | nil => simp
    | cons c cs =>
      simp only [List.cons_append, List.head?_cons, Option.some.injEq]
      exact plainChar_ne c '[' (hh c (by simp)) (by decide)
  unfold parseHost
  simp only [hall, Bool.and_true, hhead, if_false, hcontains, if_true, hport, hvalid]

/-- On a token `user:pass@host:port` whose user, password and host are made of
letters, digits, dots, hyphens and underscores and whose port is made of
digits, the reference parser yields exactly these components. -/
theorem urlParse_plain_token (u p host port : List Char)
    (hu : ∀ c ∈ u, plainChar c = true) (hpw : ∀ c ∈ p, plainChar c = true)
    (hh : ∀ c ∈ host, plainChar c = true) (hp : ∀ c ∈ port, digitChar c = true) :
    urlParse (String.mk ('s' :: 's' :: 'h' :: ':' :: '/' :: '/' ::
        (u ++ ':' :: (p ++ '@' :: (host ++ ':' :: port))))) =
      some { User := some { username := String.mk u, password := some (String.mk p) },
             Host := String.mk (host ++ ':' :: port) } := by
  have hport : ∀ c ∈ port, plainChar c = true := fun c hc => digitChar_plain c (hp c hc)
  have hmem : ∀ c ∈ u ++ ':' :: (p ++ '@' :: (host ++ ':' :: port)),
      plainChar c = true ∨ c = ':' ∨ c = '@' := by
    intro c hc
    simp only [List.mem_append, List.mem_cons] at hc
    rcases hc with h | h | h | h | h | h | h
    · exact Or.inl (hu c h)
    · exact Or.inr (Or.inl h)
    · exact Or.inl (hpw c h)
    · exact Or.inr (Or.inr h)
    · exact Or.inl (hh c h)
    · exact Or.inr (Or.inl h)
    · exact Or.inl (hport c h)
  have hne : ∀ x : Char, plainChar x = false → x ≠ ':' → x ≠ '@' →
      ∀ c ∈ u ++ ':' :: (p ++ '@' :: (host ++ ':' :: port)), c ≠ x := by
    intro x hx h1 h2 c hc
    rcases hmem c hc with h | h | h
    · exact plainChar_ne c x h hx
    · rw [h]; exact Ne.symm h1
    · rw [h]; exact Ne.symm h2
  have hpct : (u ++ ':' :: (p ++ '@' :: (host ++ ':' :: port))).contains '%' = false := by
    rw [Bool.eq_false_iff]
    intro hc
    simp only [List.contains_iff_exists_mem_beq, beq_iff_eq] at hc
    obtain ⟨c, hc, heq⟩ := hc
    exact hne '%' (by decide) (by decide) (by decide) c hc heq.symm
  have hfrag : (u ++ ':' :: (p ++ '@' :: (host ++ ':' :: port))).takeWhile
      (fun c => c ≠ '#') = u ++ ':' :: (p ++ '@' :: (host ++ ':' :: port)) :=
    takeWhile_all _ _ (fun c hc => by simpa using hne '#' (by decide) (by decide) (by decide) c hc)
  have hctl : (u ++ ':' :: (p ++ '@' :: (host ++ ':' :: port))).any
      (fun c => decide (c.toNat < 0x20) || decide (c.toNat = 0x7f)) = false := by
    rw [Bool.eq_false_iff]
    intro hc
    simp only [List.any_eq_true] at hc
    obtain ⟨c, hc, hctl⟩ := hc
    rcases hmem c hc with h | h | h
    · rw [plainChar_not_ctl c h] at hctl; exact absurd hctl (by simp)
    · subst h; exact absurd hctl (by decide)
    · subst h; exact absurd hctl (by decide)
  have hauth : (u ++ ':' :: (p ++ '@' :: (host ++ ':' :: port))).takeWhile
      (fun c => c ≠ '/' && c ≠ '?' && c ≠ '#') =
        u ++ ':' :: (p ++ '@' :: (host ++ ':' :: port)) :=
    takeWhile_all _ _ (fun c hc => by
      have h1 := hne '/' (by decide) (by decide) (by decide) c hc
      have h2 := hne '?' (by decide) (by decide) (by decide) c hc
      have h3 := hne '#' (by decide) (by decide) (by decide) c hc
      simp [h1, h2, h3])
  have hassoc : u ++ ':' :: (p ++ '@' :: (host ++ ':' :: port)) =
      (u ++ ':' :: p) ++ '@' :: (host ++ ':' :: port) := by simp
  have hhostpart : ((u ++ ':' :: (p ++ '@' :: (host ++ ':' :: port))).reverse.takeWhile
      fun c => c ≠ '@').reverse = host ++ ':' :: port := by
    rw [hassoc]
    apply suffix_after_last
    intro c hc
    simp only [List.mem_append, List.mem_cons] at hc
    rcases hc with h | h | h
    · exact plainChar_ne c '@' (hh c h) (by decide)
    · subst h; decide
    · exact plainChar_ne c '@' (hport c h) (by decide)
  have hat : (u ++ ':' :: (p ++ '@' :: (host ++ ':' :: port))).contains '@' = true := by simp
  have huserinfo : (u ++ ':' :: (p ++ '@' :: (host ++ ':' :: port))).take
      ((u ++ ':' :: (p ++ '@' :: (host ++ ':' :: port))).length -
        (host ++ ':' :: port).length - 1) = u ++ ':' :: p := by
    rw [hassoc]
    have hl : ((u ++ ':' :: p) ++ '@' :: (host ++ ':' :: port)).length -
        (host ++ ':' :: port).length - 1 = (u ++ ':' :: p).length := by
      simp only [List.length_append, List.length_cons]
      omega
    rw [hl, List.take_left]
  have huall : (u ++ ':' :: p).all userinfoCharOK = true := by
    simp only [List.all_eq_true, List.mem_append, List.mem_cons]
    rintro c (hc | rfl | hc)
    · exact plainChar_userinfoCharOK c (hu c hc)
    · decide
    · exact plainChar_userinfoCharOK c (hpw c hc)
  have hucolon : (u ++ ':' :: p).contains ':' = true := by simp
  have huname : (u ++ ':' :: p).takeWhile (fun c => c ≠ ':') = u :=
    takeWhile_append_stop _ _ _ _
      (fun c hc => by simpa using plainChar_ne c ':' (hu c hc) (by decide)) (by simp)
  have hupass : ((u ++ ':' :: p).dropWhile (fun c => c ≠ ':')).drop 1 = p := by
    rw [dropWhile_append_stop _ _ _ _
      (fun c hc => by simpa using plainChar_ne c ':' (hu c hc) (by decide)) (by simp)]
    rfl
  simp only [urlParse, hpct, hfrag, hctl, hauth, parseAuthority, hat, hhostpart, huserinfo,
    parseHost_plain host port hh hp, huall, hucolon, huname, hupass, if_true, if_false,
    Bool.false_eq_true]

/-! ## Host identity resolution -/

theorem resolveLoop_length (env : Env) (user : String) (timeoutSec : Int) (authKeys : Slice)
    (hosts : List String) (i : Nat) (h : Heap) (hcs : List HostConfig) :
    (resolveLoop env user timeoutSec authKeys i hosts (h, hcs)).2.length = hcs.length := by
  induction hosts generalizing i h hcs with
  | nil => rfl
  | cons t rest ih =>
    simp only [resolveLoop]
    split
    · rw [ih]; simp
    · rw [ih]

/-- The batch always has one entry per raw token. -/
theorem resolveHosts_length (env : Env) (user : String) (timeoutSec : Int) (authKeys : Slice)
    (h : Heap) (hosts : List String) :
    (resolveHosts env user timeoutSec authKeys h hosts).2.length = hosts.length := by
  unfold resolveHosts
  rw [resolveLoop_length]
  simp

theorem resolveLoop_getElem_lt (env : Env) (user : String) (timeoutSec : Int)
    (authKeys : Slice) (hosts : List String) (i : Nat) (h : Heap) (hcs : List HostConfig)
    (j : Nat) (hj : j < i) :
    (resolveLoop env user timeoutSec authKeys i hosts (h, hcs)).2[j]? = hcs[j]? := by
  induction hosts generalizing i h hcs with
  | nil => rfl
  | cons t rest ih =>
    simp only [resolveLoop]
    split
    · rw [ih _ _ _ (by omega)]
      rw [List.getElem?_set_ne (by omega)]
    · rw [ih _ _ _ (by omega)]

theorem resolveLoop_getElem (env : Env) (user : String) (timeoutSec : Int)
    (authKeys : Slice) (hosts : List String) (i : Nat) (h : Heap) (hcs : List HostConfig)
    (k : Nat) (tok : String) (hk : hosts[k]? = some tok) (hlen : i + hosts.length ≤ hcs.length) :
    ∃ h0 : Heap, (resolveLoop env user timeoutSec authKeys i hosts (h, hcs)).2[i + k]? =
      some (((resolveHost env user timeoutSec authKeys h0 tok).2).getD
        (hcs.getD (i + k) HostConfig.zero)) := by
  induction hosts generalizing i h hcs k with
  | nil => simp at hk
  | cons t rest ih =>
    simp only [List.length_cons] at hlen
    cases k with
    | zero =>
      simp only [List.getElem?_cons_zero, Option.some.injEq] at hk
      subst hk
      refine ⟨h, ?_⟩
      simp only [resolveLoop, Nat.add_zero]
      have hi : i < hcs.length := by omega
      split
      · rename_i h1 hc heq
        rw [resolveLoop_getElem_lt _ _ _ _ _ _ _ _ _ (Nat.lt_succ_self i)]
        rw [heq]
        simp [List.getElem?_set, hi]
      · rename_i h1 heq
        rw [resolveLoop_getElem_lt _ _ _ _ _ _ _ _ _ (Nat.lt_succ_self i)]
        rw [heq]
        simp [List.getD_eq_getElem?_getD, List.getElem?_eq_getElem hi]
    | succ k =>
      simp only [List.getElem?_cons_succ] at hk
      simp only [resolveLoop]
      have hidx : i + (k + 1) = (i + 1) + k := by omega
      split
      · rename_i h1 hc heq
        obtain ⟨h0, hh⟩ := ih (i + 1) h1 (hcs.set i hc) k hk (by simp; omega)
        refine ⟨h0, ?_⟩
        rw [hidx, hh]
        have hne : ¬ i = i + 1 + k := by omega
        simp [List.getD_eq_getElem?_getD, List.getElem?_set, hne]
      · rename_i h1 heq
        obtain ⟨h0, hh⟩ := ih (i + 1) h1 hcs k hk (by omega)
        exact ⟨h0, by rw [hidx, hh]⟩

theorem resolveHosts_getElem (env : Env) (user : String) (timeoutSec : Int)
    (authKeys : Slice) (h : Heap) (hosts : List String) (k : Nat) (tok : String)
    (hk : hosts[k]? = some tok) :
    ∃ h0 : Heap, (resolveHosts env user timeoutSec authKeys h hosts).2[k]? =
      some (((resolveHost env user timeoutSec authKeys h0 tok).2).getD HostConfig.zero) := by
  obtain ⟨h0, hh⟩ := resolveLoop_getElem env user timeoutSec authKeys hosts 0 h
    (List.replicate hosts.length HostConfig.zero) k tok hk (by simp)
  refine ⟨h0, ?_⟩
  unfold resolveHosts
  have hlt : k < hosts.length := by
    by_contra hc
    rw [List.getElem?_eq_none (by omega)] at hk
    exact absurd hk (by simp)
  simpa [List.getD_eq_getElem?_getD, List.getElem?_replicate, hlt] using hh

/-- The user the loop body settles on for a parsed locator (main.go 235-240). -/
theorem resolveHost_valid (env : Env) (user : String) (timeoutSec : Int) (authKeys : Slice)
    (h : Heap) (tok : String) (urlInfo : URL)
    (hp : env.urlParse ("ssh://" ++ (aliasLookup env user tok).1) = some urlInfo)
    (hh : urlInfo.Host ≠ "") :
    ∃ hc c, (resolveHost env user timeoutSec authKeys h tok).2 = some hc ∧
      hc.Host = urlInfo.Host ∧ hc.Timeout = timeoutSec ∧
      hc.User = (match urlInfo.User with
        | some u => if u.username ≠ "" then u.username else (aliasLookup env user tok).2
        | none => (aliasLookup env user tok).2) ∧
      hc.ClientConfig = some c ∧ c.User = hc.User := by
  unfold resolveHost
  simp only [hp, hh, if_false]
  cases urlInfo.User with
  | none => exact ⟨_, _, rfl, rfl, rfl, rfl, rfl, rfl⟩
  | some u => exact ⟨_, _, rfl, rfl, rfl, rfl, rfl, rfl⟩

theorem resolveHost_invalid (env : Env) (user : String) (timeoutSec : Int) (authKeys : Slice)
    (h : Heap) (tok : String) (hinv : invalidToken env user tok = true) :
    resolveHost env user timeoutSec authKeys h tok = (h, none) := by
  unfold invalidToken at hinv
  unfold resolveHost
  cases hp : env.urlParse ("ssh://" ++ (aliasLookup env user tok).1) with
  | none => simp only [hp]
  | some urlInfo =>
    rw [hp] at hinv
    simp only [decide_eq_true_eq] at hinv
    simp only [hp, hinv, if_true]

theorem aliasLookup_user_empty (env : Env) (user tok : String) :
    (aliasLookup env user tok).2 = "" ↔
      (match env.sshConfig with
        | some get => get tok "User"
        | none => "") = "" ∧ user = "" := by
  unfold aliasLookup
  cases env.sshConfig with
  | none => simp
  | some get =>
    simp only
    by_cases hun : get tok "User" = ""
    · simp [hun]
    · simp [hun]

theorem aliasLookup_no_hostname (env : Env) (user tok : String)
    (hno : ∀ get, env.sshConfig = some get → get tok "Hostname" = "") :
    (aliasLookup env user tok).1 = tok := by
  unfold aliasLookup
  cases hc : env.sshConfig with
  | none => rfl
  | some get => simp [hno get hc]

theorem resolveHost_frame (env : Env) (user : String) (timeoutSec : Int) (authKeys : Slice)
    (h : Heap) (tok : String) (hwf : authKeys.WF h) :
    authKeys.WF (resolveHost env user timeoutSec authKeys h tok).1 ∧
    (resolveHost env user timeoutSec authKeys h tok).1.read authKeys = h.read authKeys := by
  unfold resolveHost
  simp only
  split
  · exact ⟨hwf, rfl⟩
  · split
    · exact ⟨hwf, rfl⟩
    · split
      · exact ⟨hwf, rfl⟩
      · rename_i u _
        cases u.password with
        | none => exact ⟨hwf, rfl⟩
        | some password =>
          exact goAppend_frame env.grow h authKeys authKeys _ hwf hwf (Or.inr (le_refl _))

/-- The methods `authKeys` denotes are the same before and after the resolution
loop: an append in the loop writes at most the cell just past them. -/
theorem resolveLoop_frame (env : Env) (user : String) (timeoutSec : Int) (authKeys : Slice)
    (hosts : List String) (i : Nat) (h : Heap) (hcs : List HostConfig) (hwf : authKeys.WF h) :
    authKeys.WF (resolveLoop env user timeoutSec authKeys i hosts (h, hcs)).1 ∧
    (resolveLoop env user timeoutSec authKeys i hosts (h, hcs)).1.read authKeys =
      h.read authKeys := by
  induction hosts generalizing i h hcs with
  | nil => exact ⟨hwf, rfl⟩
  | cons t rest ih =>
    obtain ⟨hw1, hr1⟩ := resolveHost_frame env user timeoutSec authKeys h t hwf
    simp only [resolveLoop]
    split
    · rename_i h1 hc heq
      rw [heq] at hw1 hr1
      obtain ⟨hw2, hr2⟩ := ih (i + 1) h1 (hcs.set i hc) hw1
      exact ⟨hw2, hr2.trans hr1⟩
    · rename_i h1 heq
      rw [heq] at hw1 hr1
      obtain ⟨hw2, hr2⟩ := ih (i + 1) h1 hcs hw1
      exact ⟨hw2, hr2.trans hr1⟩

/-- C1: on the list `a.example.com`, `bad token with spaces`,
`u2@b.example.com:2222` (default user alice, one usable key) the middle token
is invalid, yet the batch the resolution loop builds, and the exec action hands
to `Execute`, has three entries: the slot of the invalid token is kept, as the
zero-valued host config. The batch size is N, not N minus the number of invalid
tokens. -/
theorem resolve_keeps_invalid_slot :
    invalidToken envOneKey "alice" "bad token with spaces" = true ∧
    (resolveHosts envOneKey "alice" 5 (GetAuthKeys envOneKey [] ["id_rsa"]).2
        (GetAuthKeys envOneKey [] ["id_rsa"]).1
        ["a.example.com", "bad token with spaces", "u2@b.example.com:2222"]).2 =
      [ { User := "alice", Host := "a.example.com", Timeout := 5,
          ClientConfig := some { User := "alice", Auth := { arr := 1, len := 1, cap := 1 } } },
        HostConfig.zero,
        { User := "u2", Host := "b.example.com:2222", Timeout := 5,
          ClientConfig := some { User := "u2", Auth := { arr := 1, len := 1, cap := 1 } } } ] ∧
    Effect.execute "echo ok"
      [ { User := "alice", Host := "a.example.com", Timeout := 5,
          ClientConfig := some { User := "alice", Auth := { arr := 1, len := 1, cap := 1 } } },
        HostConfig.zero,
        { User := "u2", Host := "b.example.com:2222", Timeout := 5,
          ClientConfig := some { User := "u2", Auth := { arr := 1, len := 1, cap := 1 } } } ] 5
      ∈ (Action envOneKey
          { interactive := false,
            hostString := "a.example.com,bad token with spaces,u2@b.example.com:2222",
            hostFileName := "", user := "alice", timeoutSec := 5, keyString := "id_rsa" }
          "echo ok" []).1 := by
  refine ⟨by decide, by decide, by decide⟩

/-- C2, counterexample: with an ssh_config whose wildcard block sets
`Hostname gw.example.com`, the valid token `bob:pw@h.example.com:22` (user bob,
address h.example.com:22) resolves to user alice (the default) at address
gw.example.com: the substitute hostname replaces the whole token, embedded
user and password included. -/
theorem alias_hostname_replaces_token :
    urlParse "ssh://bob:pw@h.example.com:22" =
      some { User := some { username := "bob", password := some "pw" },
             Host := "h.example.com:22" } ∧
    (resolveHosts envWildcardAlias "alice" 5 (GetAuthKeys envWildcardAlias [] ["id_rsa"]).2
        (GetAuthKeys envWildcardAlias [] ["id_rsa"]).1 ["bob:pw@h.example.com:22"]).2 =
      [ { User := "alice", Host := "gw.example.com", Timeout := 5,
          ClientConfig := some { User := "alice", Auth := { arr := 1, len := 1, cap := 1 } } } ] := by
  refine ⟨by decide, by decide⟩

/-- C2, amended: for every token that parses as user:pass@host:port with a
non-empty user, every default user and every alias lookup that yields no
substitute hostname for the token (it may yield a substitute user), the entry
resolved for the token has User equal to the token's user, Host equal to the
token's host:port, and ClientConfig.User equal to the same user. -/
theorem resolve_embedded_user (env : Env) (user : String) (timeoutSec : Int)
    (authKeys : Slice) (h : Heap) (hosts : List String) (i : Nat)
    (tok u p host port : String)
    (hi : hosts[i]? = some tok)
    (hno : ∀ get, env.sshConfig = some get → get tok "Hostname" = "")
    (hparse : env.urlParse ("ssh://" ++ tok) =
      some { User := some { username := u, password := some p }, Host := host ++ ":" ++ port })
    (hu : u ≠ "") :
    ∃ hc c, (resolveHosts env user timeoutSec authKeys h hosts).2[i]? = some hc ∧
      hc.User = u ∧ hc.Host = host ++ ":" ++ port ∧
      hc.ClientConfig = some c ∧ c.User = u := by
  obtain ⟨h0, hget⟩ := resolveHosts_getElem env user timeoutSec authKeys h hosts i tok hi
  have hal := aliasLookup_no_hostname env user tok hno
  have hne : host ++ ":" ++ port ≠ "" := by
    intro hc
    have hl := congrArg String.length hc
    simp only [String.length_append] at hl
    have h1 : ":".length = 1 := by decide
    have h2 : "".length = 0 := by decide
    omega
  obtain ⟨hc, c, hres, hHost, -, hUser, hcc, hcu⟩ :=
    resolveHost_valid env user timeoutSec authKeys h0 tok _ (by rw [hal]; exact hparse) hne
  refine ⟨hc, c, ?_, ?_, hHost, hcc, ?_⟩
  · rw [hget, hres]; rfl
  · simpa [hu] using hUser
  · rw [hcu]; simpa [hu] using hUser

/-- C2, amended, at a concrete input: the token `bob:pw@h.example.com:22`
under an ssh_config that supplies the user carol and no hostname. -/
theorem resolve_embedded_user_witness :
    ∃ hc c, (resolveHosts envUserAlias "alice" 5 (GetAuthKeys envUserAlias [] ["id_rsa"]).2
        (GetAuthKeys envUserAlias [] ["id_rsa"]).1
        ["a.example.com", "bob:pw@h.example.com:22"]).2[1]? = some hc ∧
      hc.User = "bob" ∧ hc.Host = "h.example.com" ++ ":" ++ "22" ∧
      hc.ClientConfig = some c ∧ c.User = "bob" :=
  resolve_embedded_user envUserAlias "alice" 5 (GetAuthKeys envUserAlias [] ["id_rsa"]).2
    (GetAuthKeys envUserAlias [] ["id_rsa"]).1 ["a.example.com", "bob:pw@h.example.com:22"] 1
    "bob:pw@h.example.com:22" "bob" "pw" "h.example.com" "22"
    (by decide) (by intro get hg; cases hg; decide) (by decide) (by decide)

/-- C6: with three globally resolved methods (which `GetAuthKeys` leaves in an
array of capacity 4) and the tokens `u1:p1@h1.example.com`,
`u2:p2@h2.example.com`, the entry of the first token ends with the password of
the second. Resolved alone, the first token gets G followed by password p1; but
both appends write the one free cell of the array shared with `authKeys`, so
after the whole loop both entries read G followed by password p2. -/
theorem embedded_password_overwritten :
    (GetAuthKeys envThreeKeys [] ["k1", "k2", "k3"]).2 = { arr := 3, len := 3, cap := 4 } ∧
    (GetAuthKeys envThreeKeys [] ["k1", "k2", "k3"]).1.read
        (GetAuthKeys envThreeKeys [] ["k1", "k2", "k3"]).2 =
      [some (AuthMethod.publicKeys "KEY1"), some (AuthMethod.publicKeys "KEY2"),
       some (AuthMethod.publicKeys "KEY3")] ∧
    urlParse "ssh://u1:p1@h1.example.com" =
      some { User := some { username := "u1", password := some "p1" },
             Host := "h1.example.com" } ∧
    (resolveHosts envThreeKeys "alice" 5 (GetAuthKeys envThreeKeys [] ["k1", "k2", "k3"]).2
        (GetAuthKeys envThreeKeys [] ["k1", "k2", "k3"]).1
        ["u1:p1@h1.example.com"]).2.map
      (HostConfig.auth
        (resolveHosts envThreeKeys "alice" 5 (GetAuthKeys envThreeKeys [] ["k1", "k2", "k3"]).2
          (GetAuthKeys envThreeKeys [] ["k1", "k2", "k3"]).1
          ["u1:p1@h1.example.com"]).1) =
      [ [some (AuthMethod.publicKeys "KEY1"), some (AuthMethod.publicKeys "KEY2"),
         some (AuthMethod.publicKeys "KEY3"), some (AuthMethod.password "p1")] ] ∧
    (resolveHosts envThreeKeys "alice" 5 (GetAuthKeys envThreeKeys [] ["k1", "k2", "k3"]).2
        (GetAuthKeys envThreeKeys [] ["k1", "k2", "k3"]).1
        ["u1:p1@h1.example.com", "u2:p2@h2.example.com"]).2.map
      (HostConfig.auth
        (resolveHosts envThreeKeys "alice" 5 (GetAuthKeys envThreeKeys [] ["k1", "k2", "k3"]).2
          (GetAuthKeys envThreeKeys [] ["k1", "k2", "k3"]).1
          ["u1:p1@h1.example.com", "u2:p2@h2.example.com"]).1) =
      [ [some (AuthMethod.publicKeys "KEY1"), some (AuthMethod.publicKeys "KEY2"),
         some (AuthMethod.publicKeys "KEY3"), some (AuthMethod.password "p2")],
        [some (AuthMethod.publicKeys "KEY1"), some (AuthMethod.publicKeys "KEY2"),
         some (AuthMethod.publicKeys "KEY3"), some (AuthMethod.password "p2")] ] := by
  refine ⟨by decide, by decide, by decide, by decide, by decide⟩

/-- C9, counterexample: with an empty default user (neither the flag nor USER
set), the valid token `a.example.com` and no ssh_config, the batch handed to
`Execute` holds an entry whose User is empty. -/
theorem empty_default_user_reaches_Execute :
    Effect.execute "uptime"
      [ { User := "", Host := "a.example.com", Timeout := 5,
          ClientConfig := some { User := "", Auth := { arr := 1, len := 1, cap := 1 } } } ] 5
      ∈ (Action envOneKey
          { interactive := false, hostString := "a.example.com", hostFileName := "",
            user := "", timeoutSec := 5, keyString := "id_rsa" }
          "uptime" []).1 := by
  decide

/-- C9, amended: for every host list, every default user (the empty one
included) and every alias lookup, the batch entry resolved from a valid token
has a non-empty User, except when the token embeds no non-empty user, the alias
lookup yields no substitute user and the default user is empty; in that case,
and only then, its User is empty. -/
theorem resolve_user_empty_iff (env : Env) (user : String) (timeoutSec : Int)
    (authKeys : Slice) (h : Heap) (hosts : List String) (i : Nat) (tok : String)
    (urlInfo : URL) (hi : hosts[i]? = some tok)
    (hp : env.urlParse ("ssh://" ++ (aliasLookup env user tok).1) = some urlInfo)
    (hh : urlInfo.Host ≠ "") :
    ∃ hc, (resolveHosts env user timeoutSec authKeys h hosts).2[i]? = some hc ∧
      (hc.User = "" ↔
        (match urlInfo.User with
          | some u => u.username
          | none => "") = "" ∧
        (match env.sshConfig with
          | some get => get tok "User"
          | none => "") = "" ∧
        user = "") := by
  obtain ⟨h0, hget⟩ := resolveHosts_getElem env user timeoutSec authKeys h hosts i tok hi
  obtain ⟨hc, c, hres, -, -, hUser, -, -⟩ :=
    resolveHost_valid env user timeoutSec authKeys h0 tok urlInfo hp hh
  refine ⟨hc, by rw [hget, hres]; rfl, ?_⟩
  rw [hUser]
  have hal := aliasLookup_user_empty env user tok
  cases urlInfo.User with
  | none =>
    simp only [true_and]
    exact hal
  | some usr =>
    simp only
    by_cases hu : usr.username = ""
    · simp only [hu, ne_eq, not_true_eq_false, if_false, true_and]
      exact hal
    · simp only [ne_eq, hu, not_false_eq_true, if_true, false_and]

/-- C9, amended, at two concrete inputs with an empty default user: the token
`u2@b.example.com:2222` (after an invalid one) resolves to a non-empty User
because it embeds the user u2, and the token `a.example.com` under an
ssh_config with `User carol` because the alias lookup supplies carol. -/
theorem resolve_user_empty_iff_witness :
    (∃ hc, (resolveHosts envOneKey "" 5 (GetAuthKeys envOneKey [] ["id_rsa"]).2
        (GetAuthKeys envOneKey [] ["id_rsa"]).1
        ["bad token with spaces", "u2@b.example.com:2222"]).2[1]? = some hc ∧
      (hc.User = "" ↔ "u2" = "" ∧ "" = "" ∧ "" = "")) ∧
    (∃ hc, (resolveHosts envUserAlias "" 5 (GetAuthKeys envUserAlias [] ["id_rsa"]).2
        (GetAuthKeys envUserAlias [] ["id_rsa"]).1 ["a.example.com"]).2[0]? = some hc ∧
      (hc.User = "" ↔ "" = "" ∧ "carol" = "" ∧ "" = "")) :=
  ⟨resolve_user_empty_iff envOneKey "" 5 (GetAuthKeys envOneKey [] ["id_rsa"]).2
      (GetAuthKeys envOneKey [] ["id_rsa"]).1
      ["bad token with spaces", "u2@b.example.com:2222"] 1 "u2@b.example.com:2222"
      { User := some { username := "u2", password := none }, Host := "b.example.com:2222" }
      (by decide) (by decide) (by decide),
    resolve_user_empty_iff envUserAlias "" 5 (GetAuthKeys envUserAlias [] ["id_rsa"]).2
      (GetAuthKeys envUserAlias [] ["id_rsa"]).1 ["a.example.com"] 0 "a.example.com"
      { User := none, Host := "a.example.com" }
      (by decide) (by decide) (by decide)⟩

theorem ssh_locator_data (u p host port : List Char) :
    "ssh://" ++ (String.mk u ++ ":" ++ String.mk p ++ "@" ++ String.mk host ++ ":" ++
        String.mk port) =
      String.mk ('s' :: 's' :: 'h' :: ':' :: '/' :: '/' ::
        (u ++ ':' :: (p ++ '@' :: (host ++ ':' :: port)))) := by
  apply String.ext
  simp [String.data_append]

/-- The amended C2 on the reference parser: a token written
`user:pass@host:port` with a non-empty user, where user, password and host are
made of letters, digits, dots, hyphens and underscores and the port of digits,
resolves to that user at that `host:port`, for every default user and every
alias lookup without a substitute hostname for the token. -/
theorem resolve_plain_token (env : Env) (henv : env.urlParse = urlParse) (user : String)
    (timeoutSec : Int) (authKeys : Slice) (h : Heap) (hosts : List String) (i : Nat)
    (u p host port : List Char)
    (hu : ∀ c ∈ u, plainChar c = true) (hpw : ∀ c ∈ p, plainChar c = true)
    (hh : ∀ c ∈ host, plainChar c = true) (hp : ∀ c ∈ port, digitChar c = true)
    (hune : u ≠ [])
    (hi : hosts[i]? = some (String.mk u ++ ":" ++ String.mk p ++ "@" ++ String.mk host ++
      ":" ++ String.mk port))
    (hno : ∀ get, env.sshConfig = some get →
      get (String.mk u ++ ":" ++ String.mk p ++ "@" ++ String.mk host ++ ":" ++
        String.mk port) "Hostname" = "") :
    ∃ hc c, (resolveHosts env user timeoutSec authKeys h hosts).2[i]? = some hc ∧
      hc.User = String.mk u ∧ hc.Host = String.mk host ++ ":" ++ String.mk port ∧
      hc.ClientConfig = some c ∧ c.User = String.mk u := by
  obtain ⟨h0, hget⟩ := resolveHosts_getElem env user timeoutSec authKeys h hosts i _ hi
  have hal := aliasLookup_no_hostname env user _ hno
  have hparse := urlParse_plain_token u p host port hu hpw hh hp
  rw [← ssh_locator_data, ← henv] at hparse
  have hne : String.mk (host ++ ':' :: port) ≠ "" := by
    intro hc
    have := congrArg String.data hc
    simp at this
  have hu1 : String.mk u ≠ "" := by
    intro hc
    exact hune (congrArg String.data hc)
  obtain ⟨hc, c, hres, hHost, -, hUser, hcc, hcu⟩ :=
    resolveHost_valid env user timeoutSec authKeys h0 _ _ (by rw [hal]; exact hparse) hne
  have hhost : String.mk (host ++ ':' :: port) = String.mk host ++ ":" ++ String.mk port := by
    apply String.ext
    simp [String.data_append]
  refine ⟨hc, c, ?_, ?_, by rw [hHost, hhost], hcc, ?_⟩
  · rw [hget, hres]; rfl
  · simpa [hu1] using hUser
  · rw [hcu]; simpa [hu1] using hUser

/-! ## Host source -/

theorem splitOn_sep_cons (sep : Char) (l : List Char) :
    splitOn sep (sep :: l) = [] :: splitOn sep l := by
  simp [splitOn]

theorem splitOn_ne_nil (sep : Char) (l : List Char) : splitOn sep l ≠ [] := by
  induction l with
  | nil => simp [splitOn]
  | cons c cs ih =>
    unfold splitOn
    split
    · simp
    · split <;> simp

theorem splitOn_concat_sep (sep : Char) (l : List Char) :
    splitOn sep (l ++ [sep]) = splitOn sep l ++ [[]] := by
  induction l with
  | nil => simp [splitOn]
  | cons c cs ih =>
    by_cases hc : c = sep
    · subst hc
      simp only [List.cons_append, splitOn_sep_cons, ih, List.cons_append]
    · simp only [List.cons_append, splitOn, hc, if_false]
      rw [show cs.append [sep] = cs ++ [sep] from rfl, ih]
      cases hs : splitOn sep cs with
      | nil => exact absurd hs (splitOn_ne_nil sep cs)
      | cons w ws => simp

theorem splitOn_dropWhile (sep : Char) (l : List Char) :
    ∃ k, splitOn sep l =
      List.replicate k [] ++ splitOn sep (l.dropWhile fun c => c == sep) := by
  induction l with
  | nil => exact ⟨0, rfl⟩
  | cons c cs ih =>
    by_cases hc : c = sep
    · subst hc
      obtain ⟨k, hk⟩ := ih
      refine ⟨k + 1, ?_⟩
      rw [splitOn_sep_cons, hk]
      simp [List.replicate_succ]
    · refine ⟨0, ?_⟩
      simp [List.dropWhile_cons, hc]

theorem splitOn_rdropWhile (sep : Char) (l : List Char) :
    ∃ m, splitOn sep l =
      splitOn sep (l.rdropWhile fun c => c == sep) ++ List.replicate m [] := by
  induction l using List.reverseRecOn with
  | nil => exact ⟨0, by simp⟩
  | append_singleton l a ih =>
    by_cases ha : a = sep
    · subst ha
      obtain ⟨m, hm⟩ := ih
      refine ⟨m + 1, ?_⟩
      rw [splitOn_concat_sep, List.rdropWhile_concat_pos _ _ _ (by simp)]
      rw [hm, List.replicate_succ', List.append_assoc]
    · refine ⟨0, ?_⟩
      rw [List.rdropWhile_concat_neg _ _ _ (by simpa using ha)]
      simp

theorem splitOn_trimChars (sep : Char) (l : List Char) :
    ∃ k m, splitOn sep l =
      List.replicate k [] ++ splitOn sep (trimChars (fun c => c == sep) l) ++
        List.replicate m [] := by
  obtain ⟨k, hk⟩ := splitOn_dropWhile sep l
  obtain ⟨m, hm⟩ := splitOn_rdropWhile sep (l.dropWhile fun c => c == sep)
  refine ⟨k, m, ?_⟩
  unfold trimChars
  rw [hk, hm, List.append_assoc]

theorem TrimSpace_empty : TrimSpace (String.mk []) = "" := by decide

theorem filter_blank_replicate (k : Nat) :
    ((List.replicate k ([] : List Char)).map fun w => TrimSpace (String.mk w)).filter
      (fun line => decide (line ≠ "")) = [] := by
  induction k with
  | zero => rfl
  | succ k ih =>
    simp only [List.replicate_succ, List.map_cons, TrimSpace_empty]
    rw [List.filter_cons_of_neg (by simp)]
    exact ih

/-- The loop of `ReadHostsFromFile` yields the non-blank lines of the whole
content, trimmed, in file order. -/
theorem ReadHostsFromFile_lines (buffer : String) :
    ((Split (Trim buffer '\n') '\n').filterMap fun host =>
      if TrimSpace host ≠ "" then some (TrimSpace host) else none) =
      nonBlankLinesTrimmed buffer := by
  have hfm : ∀ l : List String,
      (l.filterMap fun host => if TrimSpace host ≠ "" then some (TrimSpace host) else none) =
        (l.map TrimSpace).filter fun line => decide (line ≠ "") := by
    intro l
    induction l with
    | nil => rfl
    | cons a rest ih =>
      by_cases ha : TrimSpace a = ""
      · simp only [List.filterMap_cons, ha, ne_eq, not_true_eq_false, if_false, List.map_cons]
        rw [List.filter_cons_of_neg (by simp)]
        exact ih
      · simp only [List.filterMap_cons, ne_eq, ha, not_false_eq_true, if_true, List.map_cons]
        rw [List.filter_cons_of_pos (by simpa using ha)]
        rw [ih]
  rw [hfm]
  unfold nonBlankLinesTrimmed Split Trim
  obtain ⟨k, m, hkm⟩ := splitOn_trimChars '\n' buffer.data
  simp only [List.map_map]
  rw [hkm]
  simp only [List.map_append, List.filter_append]
  have h1 := filter_blank_replicate k
  have h2 := filter_blank_replicate m
  simp only [Function.comp_def] at h1 h2 ⊢
  rw [h1, h2]
  simp

/-- C7, counterexample: a host file with only blank lines, and an unreadable
host file, both with the flag `h1,h2`: the tokens used are the flag's, while the
file's non-blank lines are none. -/
theorem blank_hostfile_uses_flag :
    nonBlankLinesTrimmed "\n  \n" = [] ∧
    selectHosts (refEnv [("hosts.txt", "\n  \n")]) "hosts.txt" "h1,h2" = ["h1", "h2"] ∧
    selectHosts (refEnv []) "hosts.txt" "h1,h2" = ["h1", "h2"] := by
  refine ⟨by decide, by decide, by decide⟩

/-- C7, amended: when both a host file name and a host flag are given, the raw
host tokens are the file's non-blank lines, trimmed, in file order, whenever
the file is readable and has at least one non-blank line (the flag's tokens are
then not used); when the file is unreadable or has no non-blank line, the
tokens are the flag's comma-separated tokens. -/
theorem selectHosts_file_first (env : Env) (hostFileName hostString : String)
    (hf : hostFileName ≠ "") (hs : hostString ≠ "") :
    selectHosts env hostFileName hostString =
      match env.readFile hostFileName with
      | some content =>
        if nonBlankLinesTrimmed content = [] then Split hostString ','
        else nonBlankLinesTrimmed content
      | none => Split hostString ',' := by
  unfold selectHosts ReadHostsFromFile
  simp only [ne_eq, hf, not_false_eq_true, if_true, hs, and_true]
  cases env.readFile hostFileName with
  | none => simp
  | some content =>
    simp only [ReadHostsFromFile_lines]

/-- C7, amended, at a concrete input: a file with blank lines around two hosts,
and the flag `h1,h2`; the tokens are the two hosts of the file. -/
theorem selectHosts_file_first_witness :
    "hosts.txt" ≠ "" ∧ "h1,h2" ≠ "" ∧
    selectHosts (refEnv [("hosts.txt", "\n web1 \n\ndb1\n\n")]) "hosts.txt" "h1,h2" =
      ["web1", "db1"] :=
  ⟨by decide, by decide,
    (selectHosts_file_first (refEnv [("hosts.txt", "\n web1 \n\ndb1\n\n")]) "hosts.txt"
      "h1,h2" (by decide) (by decide)).trans (by decide)⟩

/-! ## The dispatcher -/

theorem message_ne_empty (x : ExecEnv) (cmd : String) (k : Nat) (host : HostConfig) :
    message x cmd k host ≠ "" := by
  intro hc
  have hl := congrArg String.length hc
  unfold message at hl
  simp only [String.length_append] at hl
  have h1 : "\n".length = 1 := by decide
  have h2 : "".length = 0 := by decide
  omega

theorem blocks_getElem? (x : ExecEnv) (cmd : String) (hosts : List HostConfig) (k : Nat) :
    (blocks x cmd hosts)[k]? = hosts[k]?.map (message x cmd k) := by
  unfold blocks
  rw [List.getElem?_map, List.getElem?_enum]
  cases hosts[k]? <;> rfl

theorem blocks_length (x : ExecEnv) (cmd : String) (hosts : List HostConfig) :
    (blocks x cmd hosts).length = hosts.length := by
  simp [blocks]

theorem blocks_ne_empty (x : ExecEnv) (cmd : String) (hosts : List HostConfig) (m : String)
    (hm : m ∈ blocks x cmd hosts) : m ≠ "" := by
  unfold blocks at hm
  simp only [List.mem_map] at hm
  obtain ⟨p, -, rfl⟩ := hm
  exact message_ne_empty x cmd p.1 p.2

theorem sentMsgs_sublist (ms : List String) (bs : List Bool) :
    (sentMsgs ms bs).Sublist ms := by
  induction ms generalizing bs with
  | nil => cases bs <;> simp [sentMsgs]
  | cons m ms ih =>
    cases bs with
    | nil => simp [sentMsgs]
    | cons b bs =>
      cases b
      · simp only [sentMsgs]
        exact (ih bs).cons m
      · simp only [sentMsgs]
        exact (ih bs).cons₂ m

theorem sentMsgs_replicate_false (ms : List String) (n : Nat) :
    sentMsgs ms (List.replicate n false) = [] := by
  induction ms generalizing n with
  | nil => cases n <;> simp [sentMsgs, List.replicate]
  | cons m ms ih =>
    cases n with
    | zero => simp [sentMsgs]
    | succ n => simp only [List.replicate_succ, sentMsgs]; exact ih n

theorem sentMsgs_set (ms : List String) (bs : List Bool) (k : Nat) (m : String)
    (hm : ms[k]? = some m) (hb : bs[k]? = some false) :
    (sentMsgs ms (bs.set k true)).Perm (m :: sentMsgs ms bs) := by
  induction ms generalizing bs k with
  | nil => simp at hm
  | cons a ms ih =>
    cases bs with
    | nil => simp at hb
    | cons b bs =>
      cases k with
      | zero =>
        simp only [List.getElem?_cons_zero, Option.some.injEq] at hm hb
        subst hm; subst hb
        simp [sentMsgs]
      | succ k =>
        simp only [List.getElem?_cons_succ] at hm hb
        cases b
        · simp only [List.set_cons_succ, sentMsgs]
          exact ih bs k hm hb
        · simp only [List.set_cons_succ, sentMsgs]
          exact ((ih bs k hm hb).cons a).trans (List.Perm.swap m a _)

theorem sentMsgs_length_add (ms : List String) (bs : List Bool) (hl : bs.length = ms.length) :
    (sentMsgs ms bs).length + bs.count false = ms.length := by
  induction ms generalizing bs with
  | nil =>
    cases bs with
    | nil => rfl
    | cons b bs => simp at hl
  | cons m ms ih =>
    cases bs with
    | nil => simp at hl
    | cons b bs =>
      simp only [List.length_cons, Nat.add_right_cancel_iff] at hl
      have := ih bs hl
      cases b
      · simp only [sentMsgs, List.count_cons_self, List.length_cons]
        omega
      · simp only [sentMsgs, List.length_cons]
        rw [List.count_cons_of_ne (by decide)]
        omega

theorem sentMsgs_full (ms : List String) (bs : List Bool) (hl : bs.length = ms.length)
    (hc : bs.count false = 0) : sentMsgs ms bs = ms := by
  induction ms generalizing bs with
  | nil => cases bs <;> simp [sentMsgs]
  | cons m ms ih =>
    cases bs with
    | nil => simp at hl
    | cons b bs =>
      simp only [List.length_cons, Nat.add_right_cancel_iff] at hl
      cases b
      · simp at hc
      · rw [List.count_cons_of_ne (by decide)] at hc
        simp only [sentMsgs]
        rw [ih bs hl hc]

theorem exists_unsent (bs : List Bool) (hc : 0 < bs.count false) :
    ∃ k : Nat, bs[k]? = some false := by
  induction bs with
  | nil => simp at hc
  | cons b bs ih =>
    cases b
    · exact ⟨0, by simp⟩
    · rw [List.count_cons_of_ne (by decide)] at hc
      obtain ⟨k, hk⟩ := ih hc
      exact ⟨k + 1, by simpa using hk⟩

theorem count_false_set (bs : List Bool) (k : Nat) (hb : bs[k]? = some false) :
    (bs.set k true).count false + 1 = bs.count false := by
  induction bs generalizing k with
  | nil => simp at hb
  | cons b bs ih =>
    cases k with
    | zero =>
      simp only [List.getElem?_cons_zero, Option.some.injEq] at hb
      subst hb
      simp only [List.set_cons_zero, List.count_cons_self]
      rw [List.count_cons_of_ne (by decide)]
    | succ k =>
      simp only [List.getElem?_cons_succ] at hb
      have := ih k hb
      cases b
      · simp only [List.set_cons_succ, List.count_cons_self]
        omega
      · simp only [List.set_cons_succ]
        rw [List.count_cons_of_ne (by decide), List.count_cons_of_ne (by decide)]
        exact this

theorem Execute.step_send (x : ExecEnv) (cmd : String) (hosts : List HostConfig)
    (st st1 : ExecState) (k : Nat) (hstep : Execute.step x cmd hosts st (Label.send k) = some st1) :
    ∃ host, hosts[k]? = some host ∧ st.sent[k]? = some false ∧ st.results.length < 10 ∧
      st1 = { st with sent := st.sent.set k true,
                      results := st.results ++ [message x cmd k host] } := by
  simp only [Execute.step] at hstep
  split at hstep
  · rename_i host hh hs
    split at hstep
    · rename_i hlt
      simp only [Option.some.injEq] at hstep
      exact ⟨host, hh, hs, hlt, hstep.symm⟩
    · exact absurd hstep (by simp)
  · exact absurd hstep (by simp)

theorem Execute.step_recv (x : ExecEnv) (cmd : String) (hosts : List HostConfig)
    (st st1 : ExecState) (hstep : Execute.step x cmd hosts st Label.recv = some st1) :
    st.timedOut = false ∧ st.i < hosts.length ∧ ∃ res rest, st.results = res :: rest ∧
      st1 = { st with results := rest, i := st.i + 1,
                      out := if res ≠ "" then st.out ++ [Output.println res] else st.out,
                      recvd := st.recvd ++ [res] } := by
  simp only [Execute.step] at hstep
  split at hstep
  · exact absurd hstep (by simp)
  · rename_i hc
    simp only [not_or, Bool.not_eq_true, not_not] at hc
    split at hstep
    · exact absurd hstep (by simp)
    · rename_i res rest hr
      simp only [Option.some.injEq] at hstep
      exact ⟨hc.1, hc.2, res, rest, hr, hstep.symm⟩

theorem Execute.step_fire (x : ExecEnv) (cmd : String) (hosts : List HostConfig)
    (st st1 : ExecState) (hstep : Execute.step x cmd hosts st Label.fire = some st1) :
    st.fired = false ∧ st1 = { st with fired := true } := by
  simp only [Execute.step] at hstep
  split at hstep
  · exact absurd hstep (by simp)
  · rename_i hc
    simp only [Option.some.injEq] at hstep
    exact ⟨by simpa using hc, hstep.symm⟩

theorem Execute.step_timeout (x : ExecEnv) (cmd : String) (hosts : List HostConfig)
    (st st1 : ExecState) (hstep : Execute.step x cmd hosts st Label.timeout = some st1) :
    st.fired = true ∧ st.timedOut = false ∧ st.i < hosts.length ∧
      st1 = { st with out := st.out ++ [Output.red "Timed out!"], timedOut := true } := by
  simp only [Execute.step] at hstep
  split at hstep
  · rename_i hc
    simp only [Option.some.injEq] at hstep
    exact ⟨hc.1, hc.2.1, hc.2.2, hstep.symm⟩
  · exact absurd hstep (by simp)

theorem Execute.init_inv (x : ExecEnv) (cmd : String) (hosts : List HostConfig) :
    Execute.Inv x cmd hosts (Execute.init hosts) := by
  refine ⟨by simp [Execute.init], by simp [Execute.init], rfl, Nat.zero_le _, ?_, rfl⟩
  simp [Execute.init, sentMsgs_replicate_false]

theorem Execute.step_inv (x : ExecEnv) (cmd : String) (hosts : List HostConfig)
    (st st1 : ExecState) (l : Label) (hinv : Execute.Inv x cmd hosts st)
    (hstep : Execute.step x cmd hosts st l = some st1) : Execute.Inv x cmd hosts st1 := by
  obtain ⟨h1, h2, h3, h4, h5, h6⟩ := hinv
  cases l with
  | send k =>
    obtain ⟨host, hh, hs, hlt, rfl⟩ := Execute.step_send x cmd hosts st st1 k hstep
    refine ⟨by simpa using h1, by simp; omega, h3, h4, ?_, h6⟩
    have hm : (blocks x cmd hosts)[k]? = some (message x cmd k host) := by
      rw [blocks_getElem?, hh]; rfl
    have hp := sentMsgs_set (blocks x cmd hosts) st.sent k _ hm hs
    refine List.Perm.trans ?_ hp.symm
    show (st.recvd ++ (st.results ++ [message x cmd k host])).Perm _
    rw [← List.append_assoc]
    exact (List.perm_append_singleton _ _).trans (h5.cons _)
  | recv =>
    obtain ⟨hto, hi, res, rest, hr, rfl⟩ := Execute.step_recv x cmd hosts st st1 hstep
    have hres : res ≠ "" := by
      apply blocks_ne_empty x cmd hosts
      apply (sentMsgs_sublist _ st.sent).subset
      apply h5.subset
      rw [hr]; simp
    refine ⟨h1, ?_, ?_, ?_, ?_, ?_⟩
    · show rest.length ≤ 10
      rw [hr] at h2; simp at h2; omega
    · show st.i + 1 = (st.recvd ++ [res]).length
      simp [h3]
    · show st.i + 1 ≤ hosts.length
      omega
    · show (st.recvd ++ [res] ++ rest).Perm _
      rw [hr] at h5
      simpa using h5
    · show (if res ≠ "" then st.out ++ [Output.println res] else st.out) =
        (st.recvd ++ [res]).map Output.println ++
          (if st.timedOut = true then [Output.red "Timed out!"] else [])
      rw [h6]
      simp [hres, hto]
  | fire =>
    obtain ⟨-, rfl⟩ := Execute.step_fire x cmd hosts st st1 hstep
    exact ⟨h1, h2, h3, h4, h5, h6⟩
  | timeout =>
    obtain ⟨-, hto, -, rfl⟩ := Execute.step_timeout x cmd hosts st st1 hstep
    refine ⟨h1, h2, h3, h4, h5, ?_⟩
    show st.out ++ [Output.red "Timed out!"] = _
    rw [h6]
    simp [hto]

theorem Execute.run_cons (x : ExecEnv) (cmd : String) (hosts : List HostConfig)
    (st st2 : ExecState) (l : Label) (ls : List Label)
    (hrun : Execute.run x cmd hosts st (l :: ls) = some st2) :
    ∃ st1, Execute.step x cmd hosts st l = some st1 ∧
      Execute.run x cmd hosts st1 ls = some st2 := by
  simp only [Execute.run] at hrun
  split at hrun
  · rename_i st1 hs
    exact ⟨st1, hs, hrun⟩
  · exact absurd hrun (by simp)

theorem Execute.run_inv (x : ExecEnv) (cmd : String) (hosts : List HostConfig)
    (labels : List Label) (st st1 : ExecState) (hinv : Execute.Inv x cmd hosts st)
    (hrun : Execute.run x cmd hosts st labels = some st1) : Execute.Inv x cmd hosts st1 := by
  induction labels generalizing st with
  | nil =>
    simp only [Execute.run, Option.some.injEq] at hrun
    exact hrun ▸ hinv
  | cons l ls ih =>
    obtain ⟨st0, hs, hr⟩ := Execute.run_cons x cmd hosts st st1 l ls hrun
    exact ih st0 (Execute.step_inv x cmd hosts st st0 l hinv hs) hr

theorem Execute.step_after_timeout (x : ExecEnv) (cmd : String) (hosts : List HostConfig)
    (st st1 : ExecState) (l : Label) (hto : st.timedOut = true)
    (hstep : Execute.step x cmd hosts st l = some st1) :
    st1.out = st.out ∧ st1.recvd = st.recvd ∧ st1.i = st.i ∧ st1.timedOut = true := by
  cases l with
  | send k =>
    obtain ⟨host, -, -, -, rfl⟩ := Execute.step_send x cmd hosts st st1 k hstep
    exact ⟨rfl, rfl, rfl, hto⟩
  | recv =>
    obtain ⟨hf, -⟩ := Execute.step_recv x cmd hosts st st1 hstep
    rw [hto] at hf
    exact absurd hf (by simp)
  | fire =>
    obtain ⟨-, rfl⟩ := Execute.step_fire x cmd hosts st st1 hstep
    exact ⟨rfl, rfl, rfl, hto⟩
  | timeout =>
    obtain ⟨-, hf, -⟩ := Execute.step_timeout x cmd hosts st st1 hstep
    rw [hto] at hf
    exact absurd hf (by simp)

theorem Execute.run_after_timeout (x : ExecEnv) (cmd : String) (hosts : List HostConfig)
    (ls : List Label) (st st1 : ExecState) (hto : st.timedOut = true)
    (hrun : Execute.run x cmd hosts st ls = some st1) :
    st1.out = st.out ∧ st1.recvd = st.recvd ∧ st1.i = st.i ∧ st1.timedOut = true := by
  induction ls generalizing st with
  | nil =>
    simp only [Execute.run, Option.some.injEq] at hrun
    subst hrun
    exact ⟨rfl, rfl, rfl, hto⟩
  | cons l ls ih =>
    obtain ⟨st0, hs, hr⟩ := Execute.run_cons x cmd hosts st st1 l ls hrun
    obtain ⟨a, b, c, d⟩ := Execute.step_after_timeout x cmd hosts st st0 l hto hs
    obtain ⟨a1, b1, c1, d1⟩ := ih st0 d hr
    exact ⟨a1.trans a, b1.trans b, c1.trans c, d1⟩

/-- C4: in every run of `Execute`, whatever the scheduling, the output is one
`Println` per string received so far, in the order received, followed by the
timeout notice exactly when the consumer has taken the deadline case: every
result received before the deadline is already printed and nothing follows
the notice. The consumer has received as many strings as its loop counter says,
at most `len(hosts)`. Once the deadline case is taken the consumer has
returned: no continuation of the run prints, receives or advances the loop. -/
theorem Execute_timeout_order (x : ExecEnv) (cmd : String) (hosts : List HostConfig)
    (labels : List Label) (st : ExecState)
    (hrun : Execute.run x cmd hosts (Execute.init hosts) labels = some st) :
    st.out = st.recvd.map Output.println ++
      (if st.timedOut = true then [Output.red "Timed out!"] else []) ∧
    st.recvd.length = st.i ∧ st.i ≤ hosts.length ∧
    (st.timedOut = true → ∀ ls st1, Execute.run x cmd hosts st ls = some st1 →
      st1.out = st.out ∧ st1.recvd = st.recvd ∧ st1.i = st.i) := by
  obtain ⟨-, -, h3, h4, -, h6⟩ :=
    Execute.run_inv x cmd hosts labels _ st (Execute.init_inv x cmd hosts) hrun
  refine ⟨h6, h3.symm, h4, ?_⟩
  intro hto ls st1 hr
  obtain ⟨a, b, c, -⟩ := Execute.run_after_timeout x cmd hosts ls st st1 hto hr
  exact ⟨a, b, c⟩

/-- C4 at a concrete run of two hosts: the second host answers, the deadline
passes, the consumer takes the deadline case, the first host sends too late. -/
theorem Execute_timeout_order_witness :
    [Output.println "b.example.com > uptime\ndial failed\n", Output.red "Timed out!"] =
      ["b.example.com > uptime\ndial failed\n"].map Output.println ++
        (if true = true then [Output.red "Timed out!"] else []) ∧
    ["b.example.com > uptime\ndial failed\n"].length = 1 ∧ 1 ≤ demoHosts.length ∧
    (true = true → ∀ ls st1,
      Execute.run demoExec "uptime" demoHosts
        { sent := [true, true], results := ["a.example.com > uptime\n\n"], fired := true,
          i := 1, timedOut := true,
          out := [Output.println "b.example.com > uptime\ndial failed\n",
                  Output.red "Timed out!"],
          recvd := ["b.example.com > uptime\ndial failed\n"] } ls = some st1 →
      st1.out = [Output.println "b.example.com > uptime\ndial failed\n",
                 Output.red "Timed out!"] ∧
      st1.recvd = ["b.example.com > uptime\ndial failed\n"] ∧ st1.i = 1) :=
  Execute_timeout_order demoExec "uptime" demoHosts
    [Label.send 1, Label.recv, Label.fire, Label.timeout, Label.send 0]
    { sent := [true, true], results := ["a.example.com > uptime\n\n"], fired := true,
      i := 1, timedOut := true,
      out := [Output.println "b.example.com > uptime\ndial failed\n", Output.red "Timed out!"],
      recvd := ["b.example.com > uptime\ndial failed\n"] }
    (by decide)

/-- C8: a host whose command gives empty output and no error still gets a
block printed. The string the consumer tests against the empty string is the
formatted block, which is never empty, so the guard never suppresses anything:
for the host `a.example.com` and the command `true` the run prints
`a.example.com > true` followed by an empty line. -/
theorem empty_output_is_printed :
    demoExec.ExecuteCmd 0 demoHostA "true" = Except.ok "" ∧
    Execute.run demoExec "true" [demoHostA] (Execute.init [demoHostA])
        [Label.send 0, Label.recv] =
      some { sent := [true], results := [], fired := false, i := 1, timedOut := false,
             out := [Output.println "a.example.com > true\n\n"],
             recvd := ["a.example.com > true\n\n"] } := by
  refine ⟨rfl, by decide⟩

/-- A step other than the firing of the timer, from a state where the timer has
not fired, is a send or a receive: it uses up one of the remaining steps and
leaves the timer unfired. -/
theorem Execute.step_quiet (x : ExecEnv) (cmd : String) (hosts : List HostConfig)
    (st st1 : ExecState) (l : Label) (hl : l ≠ Label.fire) (hf : st.fired = false)
    (hstep : Execute.step x cmd hosts st l = some st1) :
    st1.fired = false ∧ st1.timedOut = st.timedOut ∧
      Execute.remaining hosts st1 + 1 = Execute.remaining hosts st := by
  cases l with
  | send k =>
    obtain ⟨host, -, hs, -, rfl⟩ := Execute.step_send x cmd hosts st st1 k hstep
    refine ⟨hf, rfl, ?_⟩
    have := count_false_set st.sent k hs
    simp only [Execute.remaining]
    omega
  | recv =>
    obtain ⟨-, hi, res, rest, -, rfl⟩ := Execute.step_recv x cmd hosts st st1 hstep
    refine ⟨hf, rfl, ?_⟩
    simp only [Execute.remaining]
    omega
  | fire => exact absurd rfl hl
  | timeout =>
    obtain ⟨hfired, -⟩ := Execute.step_timeout x cmd hosts st st1 hstep
    rw [hf] at hfired
    exact absurd hfired (by simp)

theorem Execute.run_quiet (x : ExecEnv) (cmd : String) (hosts : List HostConfig)
    (labels : List Label) (st st1 : ExecState) (hnf : Label.fire ∉ labels)
    (hf : st.fired = false) (hrun : Execute.run x cmd hosts st labels = some st1) :
    st1.fired = false ∧ st1.timedOut = st.timedOut ∧
      labels.length + Execute.remaining hosts st1 = Execute.remaining hosts st := by
  induction labels generalizing st with
  | nil =>
    simp only [Execute.run, Option.some.injEq] at hrun
    subst hrun
    exact ⟨hf, rfl, by simp⟩
  | cons l ls ih =>
    obtain ⟨st0, hs, hr⟩ := Execute.run_cons x cmd hosts st st1 l ls hrun
    simp only [List.mem_cons, not_or] at hnf
    obtain ⟨a, b, c⟩ := Execute.step_quiet x cmd hosts st st0 l (Ne.symm hnf.1) hf hs
    obtain ⟨a1, b1, c1⟩ := ih st0 hnf.2 a hr
    refine ⟨a1, b1.trans b, ?_⟩
    simp only [List.length_cons]
    omega

/-- Progress: while the loop has iterations left and the consumer has not timed
out, a receive or a send is enabled. -/
theorem Execute.progress (x : ExecEnv) (cmd : String) (hosts : List HostConfig)
    (st : ExecState) (hinv : Execute.Inv x cmd hosts st) (hto : st.timedOut = false)
    (hi : st.i < hosts.length) :
    ∃ l st1, l ≠ Label.fire ∧ Execute.step x cmd hosts st l = some st1 := by
  obtain ⟨h1, h2, h3, h4, h5, h6⟩ := hinv
  cases hr : st.results with
  | cons res rest =>
    have hs : ∃ st1, Execute.step x cmd hosts st Label.recv = some st1 := by
      simp [Execute.step, hto, hi, hr]
    obtain ⟨st1, hs⟩ := hs
    exact ⟨Label.recv, st1, by simp, hs⟩
  | nil =>
    rw [hr, List.append_nil] at h5
    have hlen := sentMsgs_length_add (blocks x cmd hosts) st.sent
      (by rw [h1, blocks_length])
    rw [← h5.length_eq, blocks_length] at hlen
    obtain ⟨k, hk⟩ := exists_unsent st.sent (by omega)
    have hklt : k < hosts.length := by
      by_contra hc
      rw [List.getElem?_eq_none (by omega)] at hk
      exact absurd hk (by simp)
    have hs : ∃ st1, Execute.step x cmd hosts st (Label.send k) = some st1 := by
      simp [Execute.step, List.getElem?_eq_getElem hklt, hk, hr]
    obtain ⟨st1, hs⟩ := hs
    exact ⟨Label.send k, st1, by simp, hs⟩

/-- Completion: from a state where the timer has not fired, some schedule
without the deadline brings the consumer loop to its end. -/
theorem Execute.complete (x : ExecEnv) (cmd : String) (hosts : List HostConfig) (n : Nat) :
    ∀ st : ExecState, Execute.Inv x cmd hosts st → st.fired = false → st.timedOut = false →
      Execute.remaining hosts st ≤ n →
      ∃ ls st1, Label.fire ∉ ls ∧ Execute.run x cmd hosts st ls = some st1 ∧
        st1.i = hosts.length := by
  induction n with
  | zero =>
    intro st hinv _ _ hrem
    refine ⟨[], st, by simp, rfl, ?_⟩
    have := hinv.2.2.2.1
    simp only [Execute.remaining] at hrem
    omega
  | succ n ih =>
    intro st hinv hf hto hrem
    by_cases hi : st.i = hosts.length
    · exact ⟨[], st, by simp, rfl, hi⟩
    · have hlt : st.i < hosts.length := by
        have := hinv.2.2.2.1
        omega
      obtain ⟨l, st0, hl, hs⟩ := Execute.progress x cmd hosts st hinv hto hlt
      obtain ⟨a, b, c⟩ := Execute.step_quiet x cmd hosts st st0 l hl hf hs
      obtain ⟨ls, st1, hnf, hr, hdone⟩ :=
        ih st0 (Execute.step_inv x cmd hosts st st0 l hinv hs) a (by rw [b]; exact hto)
          (by omega)
      refine ⟨l :: ls, st1, ?_, ?_, hdone⟩
      · simp only [List.mem_cons, not_or]
        exact ⟨Ne.symm hl, hnf⟩
      · simp only [Execute.run, hs]
        exact hr

/-- At the end of the loop, without a timeout, the output is one block per
host. -/
theorem Execute.out_at_end (x : ExecEnv) (cmd : String) (hosts : List HostConfig)
    (st : ExecState) (hinv : Execute.Inv x cmd hosts st) (hto : st.timedOut = false)
    (hi : st.i = hosts.length) :
    st.out.Perm ((blocks x cmd hosts).map Output.println) := by
  obtain ⟨h1, h2, h3, h4, h5, h6⟩ := hinv
  have hsub := (sentMsgs_sublist (blocks x cmd hosts) st.sent).length_le
  have hlen := h5.length_eq
  rw [List.length_append] at hlen
  rw [blocks_length] at hsub
  have hadd := sentMsgs_length_add (blocks x cmd hosts) st.sent (by rw [h1, blocks_length])
  rw [blocks_length] at hadd
  have hres : st.results = [] := List.eq_nil_of_length_eq_zero (by omega)
  have hfull := sentMsgs_full (blocks x cmd hosts) st.sent (by rw [h1, blocks_length])
    (by omega)
  rw [hres, List.append_nil, hfull] at h5
  rw [h6, hto]
  simpa using h5.map Output.println

theorem blocks_explicit (x : ExecEnv) (cmd : String) (hosts : List HostConfig) :
    (blocks x cmd hosts).map Output.println =
      hosts.enum.map fun p =>
        Output.println (x.hostColor p.2 ++ " > " ++ cmd ++ "\n" ++
          (match x.ExecuteCmd p.1 p.2 cmd with
            | Except.error err => err
            | Except.ok text => text) ++ "\n") := by
  unfold blocks
  rw [List.map_map]
  apply List.map_congr_left
  intro p _
  simp only [Function.comp, message]

/-- C3: take any run of `Execute` on a batch of N hosts in which the deadline
does not fire. The run has at most 2N steps (N sends, N receives); as long as
the consumer loop is not finished a send or a receive is enabled, so a host
whose execute operation completes is never blocked for good; the run can be
continued, without the deadline, to the end of the loop; and at the end of the
loop the output is exactly N printed result blocks, one per host of the batch,
in arrival order: a rearrangement of the list that holds, for each host of the
batch, the string `<host> > <cmd>\n<text>\n`, where `<host>` is the rendering
of the host config and `<text>` is the text its execute operation captured, or
the message of its error when execution failed. -/
theorem Execute_prints_all (x : ExecEnv) (cmd : String) (hosts : List HostConfig)
    (labels : List Label) (st : ExecState)
    (hrun : Execute.run x cmd hosts (Execute.init hosts) labels = some st)
    (hnf : Label.fire ∉ labels) :
    labels.length ≤ 2 * hosts.length ∧
    (st.i < hosts.length →
      ∃ l st1, l ≠ Label.fire ∧ Execute.step x cmd hosts st l = some st1) ∧
    (∃ ls st1, Label.fire ∉ ls ∧ Execute.run x cmd hosts st ls = some st1 ∧
      st1.i = hosts.length ∧
      st1.out.Perm (hosts.enum.map fun p =>
        Output.println (x.hostColor p.2 ++ " > " ++ cmd ++ "\n" ++
          (match x.ExecuteCmd p.1 p.2 cmd with
            | Except.error err => err
            | Except.ok text => text) ++ "\n"))) ∧
    (st.i = hosts.length →
      st.out.Perm (hosts.enum.map fun p =>
        Output.println (x.hostColor p.2 ++ " > " ++ cmd ++ "\n" ++
          (match x.ExecuteCmd p.1 p.2 cmd with
            | Except.error err => err
            | Except.ok text => text) ++ "\n")) ∧
      st.out.length = hosts.length) := by
  have hinv := Execute.run_inv x cmd hosts labels _ st (Execute.init_inv x cmd hosts) hrun
  obtain ⟨hf, hto, hlen⟩ := Execute.run_quiet x cmd hosts labels _ st hnf rfl hrun
  have hto1 : st.timedOut = false := hto
  have hinit : Execute.remaining hosts (Execute.init hosts) = 2 * hosts.length := by
    simp [Execute.remaining, Execute.init]
    omega
  refine ⟨by omega, Execute.progress x cmd hosts st hinv hto1, ?_, ?_⟩
  · obtain ⟨ls, st1, hnf1, hr1, hdone⟩ :=
      Execute.complete x cmd hosts _ st hinv hf hto1 (le_refl _)
    obtain ⟨-, hto2, -⟩ := Execute.run_quiet x cmd hosts ls st st1 hnf1 hf hr1
    have hp := Execute.out_at_end x cmd hosts st1
      (Execute.run_inv x cmd hosts ls st st1 hinv hr1) (hto2.trans hto1) hdone
    rw [blocks_explicit] at hp
    exact ⟨ls, st1, hnf1, hr1, hdone, hp⟩
  · intro hi
    have hp := Execute.out_at_end x cmd hosts st hinv hto1 hi
    refine ⟨by rw [← blocks_explicit]; exact hp, ?_⟩
    rw [hp.length_eq, List.length_map, blocks_length]

/-- C3 at a concrete run: two hosts, `a.example.com` answering `up 3 days` and
`b.example.com` failing with `dial failed`; the second sends first, both
strings are received, the deadline does not fire. The output is the block of
b followed by the block of a, a rearrangement of the two blocks in batch
order. -/
theorem Execute_prints_all_witness :
    Execute.run demoExecText "uptime" demoHosts (Execute.init demoHosts)
        [Label.send 1, Label.send 0, Label.recv, Label.recv] =
      some { sent := [true, true], results := [], fired := false, i := 2, timedOut := false,
             out := [Output.println "b.example.com > uptime\ndial failed\n",
                     Output.println "a.example.com > uptime\nup 3 days\n"],
             recvd := ["b.example.com > uptime\ndial failed\n",
                       "a.example.com > uptime\nup 3 days\n"] } ∧
    Label.fire ∉ [Label.send 1, Label.send 0, Label.recv, Label.recv] ∧
    [Output.println "b.example.com > uptime\ndial failed\n",
     Output.println "a.example.com > uptime\nup 3 days\n"].Perm
      [Output.println "a.example.com > uptime\nup 3 days\n",
       Output.println "b.example.com > uptime\ndial failed\n"] ∧
    [Output.println "b.example.com > uptime\ndial failed\n",
     Output.println "a.example.com > uptime\nup 3 days\n"].length = 2 :=
  ⟨by decide, by decide,
    ((Execute_prints_all demoExecText "uptime" demoHosts
      [Label.send 1, Label.send 0, Label.recv, Label.recv]
      { sent := [true, true], results := [], fired := false, i := 2, timedOut := false,
        out := [Output.println "b.example.com > uptime\ndial failed\n",
                Output.println "a.example.com > uptime\nup 3 days\n"],
        recvd := ["b.example.com > uptime\ndial failed\n",
                  "a.example.com > uptime\nup 3 days\n"] }
      (by decide) (by decide)).2.2.2 rfl).1,
    ((Execute_prints_all demoExecText "uptime" demoHosts
      [Label.send 1, Label.send 0, Label.recv, Label.recv]
      { sent := [true, true], results := [], fired := false, i := 2, timedOut := false,
        out := [Output.println "b.example.com > uptime\ndial failed\n",
                Output.println "a.example.com > uptime\nup 3 days\n"],
        recvd := ["b.example.com > uptime\ndial failed\n",
                  "a.example.com > uptime\nup 3 days\n"] }
      (by decide) (by decide)).2.2.2 rfl).2⟩

/-! ## The exec action -/

theorem Slice.WF_read_length (h : Heap) (s : Slice) (hwf : s.WF h) :
    (h.read s).length = s.len := by
  obtain ⟨-, h2, h3⟩ := hwf
  unfold Heap.read
  rw [List.length_take]
  omega

/-- C5: if `GetAuthKeys` returns no authentication method, the exec action
writes the message about missing keys and returns: its whole trace is that one
write, so it makes no `url.Parse` call of the resolution loop, no call of
`Execute` (hence of no host's execute operation) and no call of `StopSession`,
whatever the host list, the command, the mode and the input, also when a host
token embeds a password. -/
theorem Action_aborts_without_auth (env : Env) (f : Flags) (arg : String)
    (stdin : List String)
    (hempty : (GetAuthKeys env [] (Split f.keyString ',')).1.read
      (GetAuthKeys env [] (Split f.keyString ',')).2 = []) :
    Action env f arg stdin = ([Effect.red "Key(s) doesn't exist."], true) ∧
    ∀ e ∈ (Action env f arg stdin).1,
      (∀ rawURL, e ≠ Effect.parse rawURL) ∧
      (∀ cmd hostConfigs timeoutSec, e ≠ Effect.execute cmd hostConfigs timeoutSec) ∧
      (∀ hostConfig, e ≠ Effect.stopSession hostConfig) := by
  have hwf := (GetAuthKeys_spec env [] (Split f.keyString ',')).1
  have hlen := Slice.WF_read_length _ _ hwf
  rw [hempty] at hlen
  have hlt : (GetAuthKeys env [] (Split f.keyString ',')).2.len < 1 := by
    simp only [List.length_nil] at hlen
    omega
  have hact : Action env f arg stdin = ([Effect.red "Key(s) doesn't exist."], true) := by
    unfold Action
    simp only [hlt, if_true]
  refine ⟨hact, ?_⟩
  intro e he
  rw [hact] at he
  simp only [List.mem_singleton] at he
  subst he
  refine ⟨fun _ => by simp, fun _ _ _ => by simp, fun _ => by simp⟩

/-- C5 at a concrete input: no agent, no readable key, interactive mode, a host
token that embeds a password. -/
theorem Action_aborts_without_auth_witness :
    Action (refEnv [])
        { interactive := true, hostString := "root:secret@h.example.com", hostFileName := "",
          user := "alice", timeoutSec := 5, keyString := "id_rsa,id_dsa" }
        "" ["uptime\n", "exit\n"] = ([Effect.red "Key(s) doesn't exist."], true) ∧
    ∀ e ∈ (Action (refEnv [])
        { interactive := true, hostString := "root:secret@h.example.com", hostFileName := "",
          user := "alice", timeoutSec := 5, keyString := "id_rsa,id_dsa" }
        "" ["uptime\n", "exit\n"]).1,
      (∀ rawURL, e ≠ Effect.parse rawURL) ∧
      (∀ cmd hostConfigs timeoutSec, e ≠ Effect.execute cmd hostConfigs timeoutSec) ∧
      (∀ hostConfig, e ≠ Effect.stopSession hostConfig) :=
  Action_aborts_without_auth (refEnv [])
    { interactive := true, hostString := "root:secret@h.example.com", hostFileName := "",
      user := "alice", timeoutSec := 5, keyString := "id_rsa,id_dsa" }
    "" ["uptime\n", "exit\n"] (by decide)

end CommandCast
